import Mathlib

/-!
# Receding-horizon speed controller (CasADi tutorial): embedding and properties

The two programs `main_low_level.cpp` and `main_high_level.cpp` build a finite-horizon
optimisation problem for a point mass and run a 200-tick receding-horizon loop around an
external NLP solver.

Embedding conventions.

* `double` values are elements of an arbitrary linearly ordered field `K`
  (`ℚ` when a definition is evaluated); the two infinities used as bounds are the
  extra constructors of `Ext K`.  Rounding is not modelled.
* The sizes `N`, `N + 1`, `N + 1 + N` and the loop counters (`int` in the source) are
  natural numbers.
* CasADi symbolic expressions (`SX`, `MX`) are the syntax trees `SX K`; their meaning is
  `SX.eval`.
* The solver created by `nlpsol` / `opti.solver` is external: it is a parameter
  `solver : Arg K → List K` of the loop.
* The numeric literals of the source (`1e-7`, `-3000.0`, `3000.0`, `200`, `0.0`) are fields
  of `Config`, next to the named parameters `N`, `dt`, `m`, `v_ref`; `Config.reference`
  holds the values written in the source.
-/

namespace Mpc

/-! ## Symbolic expressions -/

/-- Symbols of the programs: `v`, `u` (arguments of the dynamics function `f`),
the entries `X(k)`, `U(k)` of the decision variables and the parameter `v0`. -/
inductive Sym
  | v
  | u
  | X (k : ℕ)
  | U (k : ℕ)
  | v0
  deriving DecidableEq, Repr

/-- Expression trees, as built by the overloaded operators of `SX` / `MX`. -/
inductive SX (K : Type)
  | const (c : K)
  | sym (s : Sym)
  | add (a b : SX K)
  | sub (a b : SX K)
  | mul (a b : SX K)
  | div (a b : SX K)
  | pow (a : SX K) (n : ℕ)
  deriving DecidableEq, Repr

namespace SX

variable {K : Type}

/-- Numeric value of an expression under an assignment of the symbols. -/
def eval [Field K] (σ : Sym → K) : SX K → K
  | const c => c
  | sym s => σ s
  | add a b => eval σ a + eval σ b
  | sub a b => eval σ a - eval σ b
  | mul a b => eval σ a * eval σ b
  | div a b => eval σ a / eval σ b
  | pow a n => eval σ a ^ n

/-- Substitution of expressions for symbols (what calling a `Function` on symbolic
arguments does). -/
def subst (τ : Sym → Option (SX K)) : SX K → SX K
  | const c => const c
  | sym s => (τ s).getD (sym s)
  | add a b => add (subst τ a) (subst τ b)
  | sub a b => sub (subst τ a) (subst τ b)
  | mul a b => mul (subst τ a) (subst τ b)
  | div a b => div (subst τ a) (subst τ b)
  | pow a n => pow (subst τ a) n

end SX

/-- A CasADi `Function(name, inputs, outputs)` with scalar symbolic inputs. -/
structure Function (K : Type) where
  inputs : List Sym
  outputs : List (SX K)

/-- Binding of the formal inputs to actual arguments, first match first. -/
def bindArgs {K : Type} : List Sym → List (SX K) → Sym → Option (SX K)
  | s :: ss, a :: as, t => if t = s then some a else bindArgs ss as t
  | _, _, _ => none

/-- Symbolic call `f(args)`: the outputs with the arguments substituted. -/
def Function.call {K : Type} (f : Function K) (args : List (SX K)) : List (SX K) :=
  f.outputs.map (SX.subst (bindArgs f.inputs args))

/-! ## Configuration -/

/-- Parameters of a run.  `N`, `dt`, `m`, `v_ref` are the named parameters of `main`;
`weight`, `u_min`, `u_max`, `ticks`, `v_init` are the literals `1e-7`, `-3000.0`, `3000.0`,
`200`, `0.0` of the source. -/
structure Config (K : Type) where
  N : ℕ
  dt : K
  m : K
  v_ref : K
  weight : K
  u_min : K
  u_max : K
  ticks : ℕ
  v_init : K

/-- The values written in the source files. -/
def Config.reference (K : Type) [Field K] : Config K where
  N := 20
  dt := 1 / 10
  m := 1500
  v_ref := 100 / (36 / 10)
  weight := 1 / 10 ^ 7
  u_min := -3000
  u_max := 3000
  ticks := 200
  v_init := 0

/-! ## Low-level variant: the NLP handed to `nlpsol` -/

section LowLevel

variable {K : Type}

/-- Lines 15-19: `v_dot = u / m` on the symbols `v`, `u`. -/
def v_dot (cfg : Config K) : SX K := SX.div (SX.sym Sym.u) (SX.const cfg.m)

/-- Line 20: `f = Function("f", {v, u}, {v_dot})`. -/
def f (cfg : Config K) : Function K where
  inputs := [Sym.v, Sym.u]
  outputs := [v_dot cfg]

/-- The expression `X(k)`. -/
def X (k : ℕ) : SX K := SX.sym (Sym.X k)

/-- The expression `U(k)`. -/
def U (k : ℕ) : SX K := SX.sym (Sym.U k)

/-- Line 40: `x_next = X(k) + f({X(k), U(k)})[0] * dt`. -/
def x_next [Zero K] (cfg : Config K) (k : ℕ) : SX K :=
  SX.add (X k) (SX.mul (((f cfg).call [X k, U k]).getD 0 (SX.const 0)) (SX.const cfg.dt))

/-- Line 37: the summand `pow(X(k) - v_ref, 2) + 1e-7 * pow(U(k), 2)`. -/
def stageCost (cfg : Config K) (k : ℕ) : SX K :=
  SX.add (SX.pow (SX.sub (X k) (SX.const cfg.v_ref)) 2)
    (SX.mul (SX.const cfg.weight) (SX.pow (U k) 2))

/-- Lines 35-42, one pass of the loop body on the pair `(J, g)`:
`J += ...; g.push_back(X(k + 1) - x_next)`. -/
def buildStep [Zero K] (cfg : Config K) (acc : SX K × List (SX K)) (k : ℕ) :
    SX K × List (SX K) :=
  (SX.add acc.1 (stageCost cfg k), acc.2 ++ [SX.sub (X (k + 1)) (x_next cfg k)])

/-- Lines 23-42: `J = 0`, `g = [X(0) - v0]`, then the loop `for k = 0 .. N-1`. -/
def buildJg [Zero K] (cfg : Config K) : SX K × List (SX K) :=
  (List.range cfg.N).foldl (buildStep cfg) (SX.const 0, [SX.sub (X 0) (SX.sym Sym.v0)])

/-- The cost expression `J`. -/
def J [Zero K] (cfg : Config K) : SX K := (buildJg cfg).1

/-- The constraint vector `g`. -/
def g [Zero K] (cfg : Config K) : List (SX K) := (buildJg cfg).2

/-- Line 45: `dict_X = vertcat({X, U})` with `X = sym("X", N + 1)`, `U = sym("U", N)`:
the symbols of the decision vector, in order. -/
def dict_X (N : ℕ) : List Sym :=
  (List.range (N + 1)).map Sym.X ++ (List.range N).map Sym.U

/-- Line 47: the dictionary `{x, f, g, p}` given to `nlpsol`. -/
structure Nlp (K : Type) where
  x : List Sym
  f : SX K
  g : List (SX K)
  p : Sym

/-- Line 47: `nlp = {{"x", dict_X}, {"f", J}, {"g", dict_G}, {"p", v0}}`. -/
def nlp [Zero K] (cfg : Config K) : Nlp K where
  x := dict_X cfg.N
  f := J cfg
  g := g cfg
  p := Sym.v0

/-- Assignment of the symbols induced by a numeric decision vector `xs` (positionally,
along the symbol list `syms`) and a parameter value `p`; symbols that are not bound
evaluate to `0`. -/
def envOf [Zero K] (syms : List Sym) (par : Sym) (xs : List K) (p : K) : Sym → K :=
  fun s => if s = par then p else xs.getD (syms.indexOf s) 0

/-- A `double` that may be one of the two infinities (used for `lbx`, `ubx`). -/
inductive Ext (K : Type)
  | negInf
  | fin (x : K)
  | posInf
  deriving DecidableEq, Repr

/-- Order of extended values: `-inf ≤ x ≤ +inf`. -/
def Ext.le [LE K] : Ext K → Ext K → Prop
  | Ext.negInf, _ => True
  | _, Ext.posInf => True
  | Ext.fin a, Ext.fin b => a ≤ b
  | Ext.fin _, Ext.negInf => False
  | Ext.posInf, Ext.negInf => False
  | Ext.posInf, Ext.fin _ => False

/-- Lines 78-81: the loop `for (j = N+1; j < N+1+N; ++j) v[j] = c` on a vector. -/
def setControls (N : ℕ) (c : Ext K) (v : List (Ext K)) : List (Ext K) :=
  (List.range' (N + 1) N).foldl (fun w j => w.set j c) v

/-- Lines 76-81: `lbx(N+1+N, -inf)` with the control slots set to `-3000.0`. -/
def lbx (cfg : Config K) : List (Ext K) :=
  setControls cfg.N (Ext.fin cfg.u_min) (List.replicate (cfg.N + 1 + cfg.N) Ext.negInf)

/-- Lines 77-81: `ubx(N+1+N, +inf)` with the control slots set to `3000.0`. -/
def ubx (cfg : Config K) : List (Ext K) :=
  setControls cfg.N (Ext.fin cfg.u_max) (List.replicate (cfg.N + 1 + cfg.N) Ext.posInf)

/-- The argument dictionary of one solver call (lines 69-83).  `lbg` and `ubg` are the
scalars assigned in lines 72-73; CasADi applies a scalar bound to every entry of `g`. -/
structure Arg (K : Type) where
  x0 : List K
  p : K
  lbg : K
  ubg : K
  lbx : List (Ext K)
  ubx : List (Ext K)

/-- Line 61: `x_init(N + 1 + N, 0.0)`. -/
def x_init [Zero K] (cfg : Config K) : List K := List.replicate (cfg.N + 1 + cfg.N) 0

/-- Lines 69-83: the arguments built in one tick from the loop variables. -/
def mkArg [Zero K] (cfg : Config K) (x_init : List K) (current_v : K) : Arg K where
  x0 := x_init
  p := current_v
  lbg := 0
  ubg := 0
  lbx := lbx cfg
  ubx := ubx cfg

/-- Line 92: the plant update `current_v += (control_u / m) * dt`. -/
def plantStep [Field K] (cfg : Config K) (current_v control_u : K) : K :=
  current_v + (control_u / cfg.m) * cfg.dt

/-- State of the simulation loop: the plant velocity, the solver calls made so far, the
lines printed so far (time, km/h, control), and whether a read of `sol_x` fell outside
the returned vector (after which nothing further is modelled). -/
structure LoopState (K : Type) where
  current_v : K
  calls : List (Arg K)
  printed : List (K × K × K)
  failed : Bool

/-- Lines 64-95, one pass of the loop body. -/
def tick [Field K] (cfg : Config K) (solver : Arg K → List K) (x_init : List K)
    (s : LoopState K) (i : ℕ) : LoopState K :=
  if s.failed then s
  else
    let arg := mkArg cfg x_init s.current_v
    let sol_x := solver arg
    match sol_x[cfg.N + 1]? with
    | none => { s with calls := s.calls ++ [arg], failed := true }
    | some control_u =>
      let v := plantStep cfg s.current_v control_u
      { current_v := v
        calls := s.calls ++ [arg]
        printed := s.printed ++ [((i : K) * cfg.dt, v * (36 / 10), control_u)]
        failed := false }

/-- Lines 60-95: the state after the first `n` ticks. -/
def runTicks [Field K] (cfg : Config K) (solver : Arg K → List K) (n : ℕ) : LoopState K :=
  (List.range n).foldl (tick cfg solver (x_init cfg))
    { current_v := cfg.v_init, calls := [], printed := [], failed := false }

/-- Lines 60-95: the whole simulation loop. -/
def run [Field K] (cfg : Config K) (solver : Arg K → List K) : LoopState K :=
  runTicks cfg solver cfg.ticks

/-- Values of the entries of `g` at a decision vector `xs` and a parameter value `p`. -/
def gValues [Field K] (cfg : Config K) (xs : List K) (p : K) : List K :=
  (nlp cfg).g.map (SX.eval (envOf (nlp cfg).x (nlp cfg).p xs p))

/-- Value of the cost `J` at a decision vector `xs` and a parameter value `p`. -/
def cost [Field K] (cfg : Config K) (xs : List K) (p : K) : K :=
  SX.eval (envOf (nlp cfg).x (nlp cfg).p xs p) (nlp cfg).f

/-- The box `lbx ≤ xs ≤ ubx`, entry by entry. -/
def InBox [LE K] [Zero K] (lb ub : List (Ext K)) (xs : List K) : Prop :=
  ∀ j : ℕ, j < xs.length →
    Ext.le (lb.getD j Ext.negInf) (Ext.fin (xs.getD j 0)) ∧
    Ext.le (Ext.fin (xs.getD j 0)) (ub.getD j Ext.posInf)

/-- Feasibility for the problem `nlpsol` is asked to solve with arguments `a`:
`lbg ≤ g(x, p) ≤ ubg` and `lbx ≤ x ≤ ubx`, for a vector of the size of `x`. -/
def Feasible [LinearOrderedField K] (cfg : Config K) (a : Arg K) (xs : List K) : Prop :=
  xs.length = (nlp cfg).x.length ∧
  (∀ r ∈ gValues cfg xs a.p, a.lbg ≤ r ∧ r ≤ a.ubg) ∧
  InBox a.lbx a.ubx xs

/-- An exact minimiser of the problem `nlpsol` is asked to solve with arguments `a`. -/
def IsMinimiser [LinearOrderedField K] (cfg : Config K) (a : Arg K) (xs : List K) : Prop :=
  Feasible cfg a xs ∧ ∀ ys, Feasible cfg a ys → cost cfg xs a.p ≤ cost cfg ys a.p

end LowLevel

/-! ## High-level variant: the `Opti` stack -/

section HighLevel

variable {K : Type}

/-- Constraints accepted by `opti.subject_to`: an equality `a == b`, or
`opti.bounded(lo, e, hi)` on a vector expression, meant entry by entry. -/
inductive Constraint (K : Type)
  | eq (a b : SX K)
  | bounded (lo : K) (es : List (SX K)) (hi : K)

/-- Meaning of a constraint under an assignment. -/
def Constraint.Holds [LinearOrderedField K] (σ : Sym → K) : Constraint K → Prop
  | Constraint.eq a b => SX.eval σ a = SX.eval σ b
  | Constraint.bounded lo es hi => ∀ e ∈ es, lo ≤ SX.eval σ e ∧ SX.eval σ e ≤ hi

/-- The content of the `Opti` object: decision variables in order of creation, the
parameter, the objective and the constraints in order of the `subject_to` calls. -/
structure Opti (K : Type) where
  x : List Sym
  p : Sym
  f : SX K
  constraints : List (Constraint K)

/-- Line 26 of the high-level file: `x_next = X(k) + (U(k) / m) * dt`. -/
def hl_x_next (cfg : Config K) (k : ℕ) : SX K :=
  SX.add (X k) (SX.mul (SX.div (U k) (SX.const cfg.m)) (SX.const cfg.dt))

/-- Lines 21-28, one pass of the loop body on the pair (J, constraints so far). -/
def hlBuildStep (cfg : Config K) (acc : SX K × List (Constraint K)) (k : ℕ) :
    SX K × List (Constraint K) :=
  (SX.add acc.1 (stageCost cfg k), acc.2 ++ [Constraint.eq (X (k + 1)) (hl_x_next cfg k)])

/-- Lines 15-33: variables, cost loop, `minimize`, and the two `subject_to` calls
after the loop. -/
def opti [Zero K] (cfg : Config K) : Opti K :=
  let acc := (List.range cfg.N).foldl (hlBuildStep cfg) (SX.const 0, [])
  { x := (List.range (cfg.N + 1)).map Sym.X ++ (List.range cfg.N).map Sym.U
    p := Sym.v0
    f := acc.1
    constraints := acc.2 ++
      [Constraint.eq (X 0) (SX.sym Sym.v0),
       Constraint.bounded cfg.u_min ((List.range cfg.N).map U) cfg.u_max] }

/-- Assignment induced in the high-level variant by values `xs` of the decision
variables and the value `p` set for the parameter. -/
def hlEnv [Zero K] (cfg : Config K) (xs : List K) (p : K) : Sym → K :=
  envOf (opti cfg).x (opti cfg).p xs p

/-- Feasibility for the `Opti` problem with parameter value `p`. -/
def HlFeasible [LinearOrderedField K] (cfg : Config K) (p : K) (xs : List K) : Prop :=
  xs.length = (opti cfg).x.length ∧ ∀ c ∈ (opti cfg).constraints, c.Holds (hlEnv cfg xs p)

/-- Value of the `Opti` objective. -/
def hlCost [Field K] (cfg : Config K) (xs : List K) (p : K) : K :=
  SX.eval (hlEnv cfg xs p) (opti cfg).f

/-- An exact minimiser of the `Opti` problem with parameter value `p`. -/
def HlIsMinimiser [LinearOrderedField K] (cfg : Config K) (p : K) (xs : List K) : Prop :=
  HlFeasible cfg p xs ∧ ∀ ys, HlFeasible cfg p ys → hlCost cfg xs p ≤ hlCost cfg ys p

/-- Line 53: `control_u = double(sol.value(U(0)))`. -/
def hlControl [Field K] (cfg : Config K) (sol : List K) (p : K) : K :=
  SX.eval (hlEnv cfg sol p) (U 0)

/-- Lines 45-57 of the high-level file, one pass of the loop body.  `solve i p` is what
`opti.solve()` returns at tick `i` after `opti.set_value(v0, p)`; the state is the plant
velocity together with the controls applied so far. -/
def hlTick [Field K] (cfg : Config K) (solve : ℕ → K → List K) (s : K × List K) (i : ℕ) :
    K × List K :=
  let control_u := hlControl cfg (solve i s.1) s.1
  (s.1 + (control_u / cfg.m) * cfg.dt, s.2 ++ [control_u])

/-- Lines 42-57 of the high-level file: the state after the first `n` ticks. -/
def hlRunTicks [Field K] (cfg : Config K) (solve : ℕ → K → List K) (n : ℕ) : K × List K :=
  (List.range n).foldl (hlTick cfg solve) (cfg.v_init, [])

end HighLevel

/-- The numeric decision vector with states `x 0 .. x N` and controls `u 0 .. u (N-1)`,
in the layout of `dict_X`. -/
def vec {K : Type} (N : ℕ) (x u : ℕ → K) : List K :=
  (List.range (N + 1)).map x ++ (List.range N).map u

/-! ## The horizon problem on sequences, and its explicit solution

Auxiliary notions for the analysis of the closed loop.  States and controls are sequences
`x u : ℕ → K` (of which the entries `x 0 .. x N`, `u 0 .. u (N-1)` matter). -/

section Analysis

variable {K : Type}

/-- Feasibility of a pair of sequences for the parameter value `p`: initial condition,
the `N` Euler steps, and the control bounds. -/
def FeasF [LinearOrderedField K] (cfg : Config K) (p : K) (x u : ℕ → K) : Prop :=
  x 0 = p ∧
  (∀ k, k < cfg.N → x (k + 1) = x k + (u k / cfg.m) * cfg.dt) ∧
  ∀ k, k < cfg.N → cfg.u_min ≤ u k ∧ u k ≤ cfg.u_max

/-- The cost on sequences. -/
def costF [Field K] (cfg : Config K) (x u : ℕ → K) : K :=
  ∑ k in Finset.range cfg.N, ((x k - cfg.v_ref) ^ 2 + cfg.weight * u k ^ 2)

/-- Sum of the tracking errors of the stages `k .. N-1` (the costate). -/
def tail [Field K] (cfg : Config K) (x : ℕ → K) (k : ℕ) : K :=
  ∑ i in Finset.Ico k cfg.N, (x i - cfg.v_ref)

/-- First-order optimality conditions for a trajectory that approaches `v_ref` from
below: at every stage the control is at its upper bound with a non-positive cost
derivative, or the cost derivative vanishes. -/
def Stationary [LinearOrderedField K] (cfg : Config K) (x u : ℕ → K) : Prop :=
  ∀ k, k < cfg.N →
    (u k = cfg.u_max ∧ cfg.weight * u k + (cfg.dt / cfg.m) * tail cfg x (k + 1) ≤ 0) ∨
    cfg.weight * u k + (cfg.dt / cfg.m) * tail cfg x (k + 1) = 0

/-- Coefficient of the accumulated tracking error: when no bound is active over `j`
stages, the errors of these stages sum to `sig cfg j` times the first of them. -/
def sig [Field K] (cfg : Config K) : ℕ → K
  | 0 => 0
  | j + 1 => 1 + cfg.weight * sig cfg j / (cfg.weight + (cfg.dt / cfg.m) ^ 2 * sig cfg j)

/-- Feedback gain of a move that is followed by `j` stages with a tracking cost. -/
def gain [Field K] (cfg : Config K) (j : ℕ) : K :=
  (cfg.dt / cfg.m) * sig cfg j / (cfg.weight + (cfg.dt / cfg.m) ^ 2 * sig cfg j)

/-- Accumulated tracking error of `j` stages that start with the error `e` and follow the
clipped feedback. -/
def tsum [LinearOrderedField K] (cfg : Config K) : ℕ → K → K
  | 0, _ => 0
  | j + 1, e => e + tsum cfg j (e - (cfg.dt / cfg.m) * min cfg.u_max (gain cfg j * e))

/-- States of the explicit solution for the velocity `p ≤ v_ref`: clipped feedback on the
error `v_ref - x k`, followed by the Euler step of the program. -/
def planState [LinearOrderedField K] (cfg : Config K) (p : K) : ℕ → K
  | 0 => p
  | k + 1 =>
    planState cfg p k +
      (min cfg.u_max (gain cfg (cfg.N - 1 - k) * (cfg.v_ref - planState cfg p k)) / cfg.m) *
        cfg.dt

/-- Controls of the explicit solution. -/
def planControl [LinearOrderedField K] (cfg : Config K) (p : K) (k : ℕ) : K :=
  min cfg.u_max (gain cfg (cfg.N - 1 - k) * (cfg.v_ref - planState cfg p k))

/-- An explicit exact solver (for velocities `p ≤ v_ref`): it returns the explicit
solution in the layout of `dict_X` and ignores the initial guess. -/
def exactSolve [LinearOrderedField K] (cfg : Config K) (a : Arg K) : List K :=
  vec cfg.N (planState cfg a.p) (planControl cfg a.p)

end Analysis

section Velocities

variable {K : Type}

/-- Plant velocity of the low-level loop after `i` ticks. -/
def velocity [Field K] (cfg : Config K) (solver : Arg K → List K) (i : ℕ) : K :=
  (runTicks cfg solver i).current_v

/-- Plant velocity of the high-level loop after `i` ticks. -/
def hlVelocity [Field K] (cfg : Config K) (solve : ℕ → K → List K) (i : ℕ) : K :=
  (hlRunTicks cfg solve i).1

end Velocities

/-! ## Structure of the built expressions -/

section Structure

variable {K : Type}

theorem x_next_eq [Zero K] (cfg : Config K) (k : ℕ) : x_next cfg k = hl_x_next cfg k := rfl

theorem eval_x_next [Field K] (cfg : Config K) (σ : Sym → K) (k : ℕ) :
    SX.eval σ (x_next cfg k) = σ (Sym.X k) + (σ (Sym.U k) / cfg.m) * cfg.dt := rfl

theorem eval_stageCost [Field K] (cfg : Config K) (σ : Sym → K) (k : ℕ) :
    SX.eval σ (stageCost cfg k) =
      (σ (Sym.X k) - cfg.v_ref) ^ 2 + cfg.weight * σ (Sym.U k) ^ 2 := rfl

theorem foldl_buildStep_snd [Zero K] (cfg : Config K) (n : ℕ) (acc : SX K × List (SX K)) :
    ((List.range n).foldl (buildStep cfg) acc).2 =
      acc.2 ++ (List.range n).map (fun k => SX.sub (X (k + 1)) (x_next cfg k)) := by
  induction n with
  | zero => simp
  | succ n ih => simp [List.range_succ, List.foldl_append, buildStep, ih]

theorem foldl_buildStep_fst [Field K] (cfg : Config K) (σ : Sym → K) (n : ℕ)
    (acc : SX K × List (SX K)) :
    SX.eval σ ((List.range n).foldl (buildStep cfg) acc).1 =
      SX.eval σ acc.1 + ∑ k in Finset.range n, SX.eval σ (stageCost cfg k) := by
  induction n with
  | zero => simp
  | succ n ih =>
    simp [List.range_succ, List.foldl_append, buildStep, ih, Finset.sum_range_succ, SX.eval,
      add_assoc]

theorem g_eq [Zero K] (cfg : Config K) :
    g cfg = SX.sub (X 0) (SX.sym Sym.v0) ::
      (List.range cfg.N).map (fun k => SX.sub (X (k + 1)) (x_next cfg k)) := by
  simp [g, buildJg, foldl_buildStep_snd]

theorem eval_J [Field K] (cfg : Config K) (σ : Sym → K) :
    SX.eval σ (J cfg) =
      ∑ k in Finset.range cfg.N,
        ((σ (Sym.X k) - cfg.v_ref) ^ 2 + cfg.weight * σ (Sym.U k) ^ 2) := by
  simp [J, buildJg, foldl_buildStep_fst, SX.eval, eval_stageCost]

theorem dict_X_length (N : ℕ) : (dict_X N).length = N + 1 + N := by simp [dict_X]

theorem indexOf_map_range {f : ℕ → Sym} (hf : Function.Injective f) (n k : ℕ) (hk : k < n) :
    ((List.range n).map f).indexOf (f k) = k := by
  induction n with
  | zero => omega
  | succ n ih =>
    rw [List.range_succ, List.map_append]
    rcases Nat.lt_succ_iff_lt_or_eq.mp hk with h | h
    · rw [List.indexOf_append_of_mem, ih h]
      exact List.mem_map.mpr ⟨k, List.mem_range.mpr h, rfl⟩
    · subst h
      rw [List.indexOf_append_of_not_mem]
      · simp
      · intro hmem
        obtain ⟨j, hj, hjk⟩ := List.mem_map.mp hmem
        have := hf hjk
        have := List.mem_range.mp hj
        omega

theorem X_injective : Function.Injective Sym.X := fun a b h => by injection h
theorem U_injective : Function.Injective Sym.U := fun a b h => by injection h

theorem indexOf_dict_X_X (N k : ℕ) (hk : k ≤ N) : (dict_X N).indexOf (Sym.X k) = k := by
  unfold dict_X
  rw [List.indexOf_append_of_mem, indexOf_map_range X_injective _ _ (by omega)]
  exact List.mem_map.mpr ⟨k, List.mem_range.mpr (by omega), rfl⟩

theorem indexOf_dict_X_U (N k : ℕ) (hk : k < N) : (dict_X N).indexOf (Sym.U k) = N + 1 + k := by
  unfold dict_X
  rw [List.indexOf_append_of_not_mem, indexOf_map_range U_injective _ _ hk]
  · simp
  · intro hmem
    obtain ⟨j, _, hjk⟩ := List.mem_map.mp hmem
    cases hjk

end Structure

section Env

variable {K : Type}

theorem env_X [Zero K] (cfg : Config K) (xs : List K) (p : K) (k : ℕ) (hk : k ≤ cfg.N) :
    envOf (nlp cfg).x (nlp cfg).p xs p (Sym.X k) = xs.getD k 0 := by
  simp [envOf, nlp, indexOf_dict_X_X _ _ hk]

theorem env_U [Zero K] (cfg : Config K) (xs : List K) (p : K) (k : ℕ) (hk : k < cfg.N) :
    envOf (nlp cfg).x (nlp cfg).p xs p (Sym.U k) = xs.getD (cfg.N + 1 + k) 0 := by
  simp [envOf, nlp, indexOf_dict_X_U _ _ hk]

theorem env_v0 [Zero K] (cfg : Config K) (xs : List K) (p : K) :
    envOf (nlp cfg).x (nlp cfg).p xs p Sym.v0 = p := by
  simp [envOf, nlp]

theorem hlEnv_eq [Zero K] (cfg : Config K) (xs : List K) (p : K) :
    hlEnv cfg xs p = envOf (nlp cfg).x (nlp cfg).p xs p := rfl

/-- The entries of `g`, evaluated: the initial-condition residual followed by the `N`
dynamics residuals. -/
theorem gValues_eq [Field K] (cfg : Config K) (xs : List K) (p : K) :
    gValues cfg xs p = (xs.getD 0 0 - p) ::
      (List.range cfg.N).map (fun k =>
        xs.getD (k + 1) 0 - (xs.getD k 0 + (xs.getD (cfg.N + 1 + k) 0 / cfg.m) * cfg.dt)) := by
  have hg : (nlp cfg).g = g cfg := rfl
  rw [gValues, hg, g_eq, List.map_cons, List.map_map]
  congr 1
  · simp only [SX.eval, X]
    rw [env_X cfg xs p 0 (Nat.zero_le _), env_v0]
  · apply List.map_congr_left
    intro k hk
    have hk' := List.mem_range.mp hk
    simp only [Function.comp, SX.eval, X, eval_x_next]
    rw [env_X cfg xs p (k + 1) hk', env_X cfg xs p k (by omega), env_U cfg xs p k hk']

/-- All entries of `g` vanish exactly when the initial condition and the `N` Euler steps
hold. -/
theorem gValues_zero_iff [Field K] (cfg : Config K) (xs : List K) (p : K) :
    (∀ r ∈ gValues cfg xs p, r = 0) ↔
      xs.getD 0 0 = p ∧ ∀ k, k < cfg.N →
        xs.getD (k + 1) 0 = xs.getD k 0 + (xs.getD (cfg.N + 1 + k) 0 / cfg.m) * cfg.dt := by
  rw [gValues_eq]
  simp only [List.mem_cons, List.mem_map, List.mem_range, forall_eq_or_imp, sub_eq_zero]
  constructor
  · rintro ⟨h0, h⟩
    exact ⟨h0, fun k hk => sub_eq_zero.mp (h _ ⟨k, hk, rfl⟩)⟩
  · rintro ⟨h0, h⟩
    refine ⟨h0, ?_⟩
    rintro r ⟨k, hk, rfl⟩
    exact sub_eq_zero.mpr (h k hk)

/-- The cost of the low-level problem as a sum over the stages. -/
theorem cost_eq [Field K] (cfg : Config K) (xs : List K) (p : K) :
    cost cfg xs p = ∑ k in Finset.range cfg.N,
      ((xs.getD k 0 - cfg.v_ref) ^ 2 + cfg.weight * xs.getD (cfg.N + 1 + k) 0 ^ 2) := by
  have hf : (nlp cfg).f = J cfg := rfl
  rw [cost, hf, eval_J]
  apply Finset.sum_congr rfl
  intro k hk
  have hk' := Finset.mem_range.mp hk
  rw [env_X cfg xs p k (by omega), env_U cfg xs p k hk']

theorem foldl_hlBuildStep_fst [Field K] (cfg : Config K) (σ : Sym → K) (n : ℕ)
    (acc : SX K × List (Constraint K)) :
    SX.eval σ ((List.range n).foldl (hlBuildStep cfg) acc).1 =
      SX.eval σ acc.1 + ∑ k in Finset.range n, SX.eval σ (stageCost cfg k) := by
  induction n with
  | zero => simp
  | succ n ih =>
    simp [List.range_succ, List.foldl_append, hlBuildStep, ih, Finset.sum_range_succ, SX.eval,
      add_assoc]

theorem foldl_hlBuildStep_snd (cfg : Config K) (n : ℕ) (acc : SX K × List (Constraint K)) :
    ((List.range n).foldl (hlBuildStep cfg) acc).2 =
      acc.2 ++ (List.range n).map (fun k => Constraint.eq (X (k + 1)) (hl_x_next cfg k)) := by
  induction n with
  | zero => simp
  | succ n ih => simp [List.range_succ, List.foldl_append, hlBuildStep, ih]

/-- The two variants build cost expressions with the same value. -/
theorem hlCost_eq_cost [Field K] (cfg : Config K) (xs : List K) (p : K) :
    hlCost cfg xs p = cost cfg xs p := by
  have hf : (nlp cfg).f = J cfg := rfl
  rw [hlCost, cost, hf, eval_J, hlEnv_eq]
  simp [opti, foldl_hlBuildStep_fst, SX.eval, eval_stageCost]

end Env

section Bounds

variable {K : Type}

theorem foldl_set_length (c : Ext K) (js : List ℕ) (v : List (Ext K)) :
    (js.foldl (fun w j => w.set j c) v).length = v.length := by
  induction js generalizing v with
  | nil => rfl
  | cons j js ih => simp [List.foldl_cons, ih]

theorem foldl_set_getElem? (c : Ext K) (js : List ℕ) (v : List (Ext K)) (i : ℕ) :
    (js.foldl (fun w j => w.set j c) v)[i]? =
      if i ∈ js ∧ i < v.length then some c else v[i]? := by
  induction js generalizing v with
  | nil => simp
  | cons j js ih =>
    rw [List.foldl_cons, ih, List.length_set]
    by_cases hij : i = j
    · subst hij
      by_cases hlen : i < v.length
      · by_cases hmem : i ∈ js <;> simp [hlen, hmem, List.getElem?_set]
      · have h1 : v[i]? = none := List.getElem?_eq_none (by omega)
        simp [hlen, List.getElem?_set, h1]
    · have hne : j ≠ i := fun h => hij h.symm
      simp [hij, List.getElem?_set, hne]

theorem setControls_length (N : ℕ) (c : Ext K) (v : List (Ext K)) :
    (setControls N c v).length = v.length := foldl_set_length c _ v

theorem setControls_getElem? (N : ℕ) (c : Ext K) (v : List (Ext K)) (i : ℕ) :
    (setControls N c v)[i]? =
      if (N + 1 ≤ i ∧ i < N + 1 + N) ∧ i < v.length then some c else v[i]? := by
  rw [setControls, foldl_set_getElem?]
  simp [List.mem_range'_1]

theorem lbx_length (cfg : Config K) : (lbx cfg).length = cfg.N + 1 + cfg.N := by
  simp [lbx, setControls_length]

theorem ubx_length (cfg : Config K) : (ubx cfg).length = cfg.N + 1 + cfg.N := by
  simp [ubx, setControls_length]

theorem lbx_state (cfg : Config K) (j : ℕ) (hj : j ≤ cfg.N) :
    (lbx cfg)[j]? = some Ext.negInf := by
  rw [lbx, setControls_getElem?]
  have h : ¬ (cfg.N + 1 ≤ j) := by omega
  simp [h, List.getElem?_replicate]
  omega

theorem ubx_state (cfg : Config K) (j : ℕ) (hj : j ≤ cfg.N) :
    (ubx cfg)[j]? = some Ext.posInf := by
  rw [ubx, setControls_getElem?]
  have h : ¬ (cfg.N + 1 ≤ j) := by omega
  simp [h, List.getElem?_replicate]
  omega

theorem lbx_control (cfg : Config K) (j : ℕ) (h1 : cfg.N + 1 ≤ j) (h2 : j < cfg.N + 1 + cfg.N) :
    (lbx cfg)[j]? = some (Ext.fin cfg.u_min) := by
  rw [lbx, setControls_getElem?]
  simp [h1, h2]

theorem ubx_control (cfg : Config K) (j : ℕ) (h1 : cfg.N + 1 ≤ j) (h2 : j < cfg.N + 1 + cfg.N) :
    (ubx cfg)[j]? = some (Ext.fin cfg.u_max) := by
  rw [ubx, setControls_getElem?]
  simp [h1, h2]

theorem dict_X_state (N j : ℕ) (hj : j ≤ N) : (dict_X N)[j]? = some (Sym.X j) := by
  unfold dict_X
  rw [List.getElem?_append_left (by simp; omega)]
  simp [List.getElem?_map, List.getElem?_range (show j < N + 1 by omega)]

theorem dict_X_control (N j : ℕ) (h1 : N + 1 ≤ j) (h2 : j < N + 1 + N) :
    (dict_X N)[j]? = some (Sym.U (j - (N + 1))) := by
  unfold dict_X
  rw [List.getElem?_append_right (by simp; omega)]
  simp only [List.length_map, List.length_range]
  simp [List.getElem?_map, List.getElem?_range (show j - (N + 1) < N by omega)]

/-- The box of the low-level problem constrains exactly the control slots. -/
theorem inBox_iff [LinearOrder K] [Zero K] (cfg : Config K) (xs : List K)
    (hlen : xs.length = cfg.N + 1 + cfg.N) :
    InBox (lbx cfg) (ubx cfg) xs ↔
      ∀ k, k < cfg.N →
        cfg.u_min ≤ xs.getD (cfg.N + 1 + k) 0 ∧ xs.getD (cfg.N + 1 + k) 0 ≤ cfg.u_max := by
  constructor
  · intro h k hk
    have := h (cfg.N + 1 + k) (by omega)
    rw [List.getD_eq_getElem?_getD, List.getD_eq_getElem?_getD (ubx cfg),
      lbx_control cfg _ (by omega) (by omega), ubx_control cfg _ (by omega) (by omega)] at this
    simpa [Ext.le] using this
  · intro h j hj
    rw [List.getD_eq_getElem?_getD (lbx cfg), List.getD_eq_getElem?_getD (ubx cfg)]
    by_cases hjN : j ≤ cfg.N
    · rw [lbx_state cfg j hjN, ubx_state cfg j hjN]
      simp [Ext.le]
    · rw [lbx_control cfg j (by omega) (by omega), ubx_control cfg j (by omega) (by omega)]
      have := h (j - (cfg.N + 1)) (by omega)
      rw [show cfg.N + 1 + (j - (cfg.N + 1)) = j by omega] at this
      simpa [Ext.le] using this

end Bounds

section Loop

variable {K : Type}

theorem tick_failed [Field K] (cfg : Config K) (solver : Arg K → List K) (x0 : List K)
    (s : LoopState K) (i : ℕ) (h : s.failed = true) : tick cfg solver x0 s i = s := by
  simp [tick, h]

theorem tick_ok [Field K] (cfg : Config K) (solver : Arg K → List K) (x0 : List K)
    (s : LoopState K) (i : ℕ) (h : s.failed = false) (c : K)
    (hc : (solver (mkArg cfg x0 s.current_v))[cfg.N + 1]? = some c) :
    tick cfg solver x0 s i =
      { current_v := plantStep cfg s.current_v c
        calls := s.calls ++ [mkArg cfg x0 s.current_v]
        printed := s.printed ++ [((i : K) * cfg.dt, plantStep cfg s.current_v c * (36 / 10), c)]
        failed := false } := by
  simp [tick, h, hc]

theorem tick_oob [Field K] (cfg : Config K) (solver : Arg K → List K) (x0 : List K)
    (s : LoopState K) (i : ℕ) (h : s.failed = false)
    (hc : (solver (mkArg cfg x0 s.current_v))[cfg.N + 1]? = none) :
    tick cfg solver x0 s i =
      { s with calls := s.calls ++ [mkArg cfg x0 s.current_v], failed := true } := by
  simp [tick, h, hc]

theorem runTicks_succ [Field K] (cfg : Config K) (solver : Arg K → List K) (n : ℕ) :
    runTicks cfg solver (n + 1) = tick cfg solver (x_init cfg) (runTicks cfg solver n) n := by
  simp [runTicks, List.range_succ, List.foldl_append]

theorem runTicks_zero [Field K] (cfg : Config K) (solver : Arg K → List K) :
    runTicks cfg solver 0 =
      { current_v := cfg.v_init, calls := [], printed := [], failed := false } := rfl

/-- Every solver call of the loop is `mkArg` of the fixed `x_init` and some velocity. -/
theorem runTicks_calls [Field K] (cfg : Config K) (solver : Arg K → List K) (n : ℕ) :
    ∀ a ∈ (runTicks cfg solver n).calls, a = mkArg cfg (x_init cfg) a.p := by
  induction n with
  | zero => simp [runTicks_zero]
  | succ n ih =>
    rw [runTicks_succ]
    intro a ha
    cases hf : (runTicks cfg solver n).failed with
    | true => rw [tick_failed _ _ _ _ _ hf] at ha; exact ih a ha
    | false =>
      cases hc : (solver (mkArg cfg (x_init cfg) (runTicks cfg solver n).current_v))[cfg.N + 1]? with
      | none =>
        rw [tick_oob _ _ _ _ _ hf hc] at ha
        rcases List.mem_append.mp ha with h | h
        · exact ih a h
        · rw [List.mem_singleton.mp h]; rfl
      | some c =>
        rw [tick_ok _ _ _ _ _ hf c hc] at ha
        rcases List.mem_append.mp ha with h | h
        · exact ih a h
        · rw [List.mem_singleton.mp h]; rfl

/-- When every returned vector has an entry at index `N + 1`, no read fails and each
tick makes one solver call and prints one line. -/
theorem runTicks_ok [Field K] (cfg : Config K) (solver : Arg K → List K)
    (hsol : ∀ a, cfg.N + 1 < (solver a).length) (n : ℕ) :
    (runTicks cfg solver n).failed = false ∧ (runTicks cfg solver n).calls.length = n ∧
      (runTicks cfg solver n).printed.length = n := by
  induction n with
  | zero => simp [runTicks_zero]
  | succ n ih =>
    obtain ⟨hf, hcl, hpl⟩ := ih
    rw [runTicks_succ]
    have hc := List.getElem?_eq_getElem (hsol (mkArg cfg (x_init cfg) (runTicks cfg solver n).current_v))
    rw [tick_ok _ _ _ _ _ hf _ hc]
    simp [hcl, hpl]

/-- The velocity after tick `n`, when the read of the control succeeds. -/
theorem runTicks_current_v [Field K] (cfg : Config K) (solver : Arg K → List K)
    (hsol : ∀ a, cfg.N + 1 < (solver a).length) (n : ℕ) :
    (runTicks cfg solver (n + 1)).current_v =
      plantStep cfg (runTicks cfg solver n).current_v
        ((solver (mkArg cfg (x_init cfg) (runTicks cfg solver n).current_v)).getD (cfg.N + 1) 0) := by
  rw [runTicks_succ]
  have hc := List.getElem?_eq_getElem (hsol (mkArg cfg (x_init cfg) (runTicks cfg solver n).current_v))
  rw [tick_ok _ _ _ _ _ (runTicks_ok cfg solver hsol n).1 _ hc, List.getD_eq_getElem?_getD, hc]
  rfl

end Loop

section Dynamics

variable {K : Type}

/-- Symbol-level form: all entries of `g` vanish exactly when the initial condition and
the `N` Euler steps hold. -/
theorem g_zero_iff [Field K] (cfg : Config K) (σ : Sym → K) :
    (∀ e ∈ g cfg, SX.eval σ e = 0) ↔
      σ (Sym.X 0) = σ Sym.v0 ∧ ∀ k, k < cfg.N →
        σ (Sym.X (k + 1)) = σ (Sym.X k) + (σ (Sym.U k) / cfg.m) * cfg.dt := by
  rw [g_eq]
  simp only [List.mem_cons, List.mem_map, List.mem_range, forall_eq_or_imp]
  constructor
  · rintro ⟨h0, h⟩
    refine ⟨sub_eq_zero.mp h0, fun k hk => ?_⟩
    have := h _ ⟨k, hk, rfl⟩
    exact sub_eq_zero.mp this
  · rintro ⟨h0, h⟩
    refine ⟨sub_eq_zero.mpr h0, ?_⟩
    rintro e ⟨k, hk, rfl⟩
    exact sub_eq_zero.mpr (h k hk)

/-- Unrolling the Euler recursion: the states are the initial value plus the scaled
partial sums of the controls. -/
theorem euler_closed_form [Field K] (dt m v0 : K) (N : ℕ) (x u : ℕ → K) :
    (x 0 = v0 ∧ ∀ k, k < N → x (k + 1) = x k + (u k / m) * dt) ↔
      ∀ k, k ≤ N → x k = v0 + (dt / m) * ∑ j in Finset.range k, u j := by
  constructor
  · rintro ⟨h0, h⟩ k
    induction k with
    | zero => intro _; simp [h0]
    | succ k ih =>
      intro hk
      rw [h k (by omega), ih (by omega), Finset.sum_range_succ]
      ring
  · intro h
    refine ⟨by simpa using h 0 (Nat.zero_le _), fun k hk => ?_⟩
    rw [h (k + 1) (by omega), h k (by omega), Finset.sum_range_succ]
    ring

theorem le_zero_and_ge_zero_iff [LinearOrder K] [Zero K] (r : K) : (0 ≤ r ∧ r ≤ 0) ↔ r = 0 :=
  ⟨fun h => le_antisymm h.2 h.1, fun h => by rw [h]; exact ⟨le_refl _, le_refl _⟩⟩

end Dynamics

section Feasibility

variable {K : Type}

theorem nlp_x_length [Zero K] (cfg : Config K) : (nlp cfg).x.length = cfg.N + 1 + cfg.N :=
  dict_X_length cfg.N

theorem opti_x_length [Zero K] (cfg : Config K) : (opti cfg).x.length = cfg.N + 1 + cfg.N :=
  dict_X_length cfg.N

/-- Feasibility for the low-level problem, spelled out on the entries of the vector. -/
theorem feasible_iff [LinearOrderedField K] (cfg : Config K) (x0 xs : List K) (p : K) :
    Feasible cfg (mkArg cfg x0 p) xs ↔
      xs.length = cfg.N + 1 + cfg.N ∧
      (xs.getD 0 0 = p ∧ ∀ k, k < cfg.N →
        xs.getD (k + 1) 0 = xs.getD k 0 + (xs.getD (cfg.N + 1 + k) 0 / cfg.m) * cfg.dt) ∧
      ∀ k, k < cfg.N →
        cfg.u_min ≤ xs.getD (cfg.N + 1 + k) 0 ∧ xs.getD (cfg.N + 1 + k) 0 ≤ cfg.u_max := by
  unfold Feasible
  rw [nlp_x_length]
  constructor
  · rintro ⟨hl, hg, hb⟩
    refine ⟨hl, ?_, (inBox_iff cfg xs hl).mp hb⟩
    rw [← gValues_zero_iff]
    intro r hr
    exact (le_zero_and_ge_zero_iff r).mp (hg r hr)
  · rintro ⟨hl, hg, hb⟩
    refine ⟨hl, ?_, (inBox_iff cfg xs hl).mpr hb⟩
    intro r hr
    exact (le_zero_and_ge_zero_iff r).mpr ((gValues_zero_iff cfg xs p).mpr hg r hr)

/-- Feasibility for the high-level problem, spelled out on the entries of the vector. -/
theorem hlFeasible_iff [LinearOrderedField K] (cfg : Config K) (xs : List K) (p : K) :
    HlFeasible cfg p xs ↔
      xs.length = cfg.N + 1 + cfg.N ∧
      (xs.getD 0 0 = p ∧ ∀ k, k < cfg.N →
        xs.getD (k + 1) 0 = xs.getD k 0 + (xs.getD (cfg.N + 1 + k) 0 / cfg.m) * cfg.dt) ∧
      ∀ k, k < cfg.N →
        cfg.u_min ≤ xs.getD (cfg.N + 1 + k) 0 ∧ xs.getD (cfg.N + 1 + k) 0 ≤ cfg.u_max := by
  unfold HlFeasible
  rw [opti_x_length]
  have hcs : (opti cfg).constraints =
      (List.range cfg.N).map (fun k => Constraint.eq (X (k + 1)) (hl_x_next cfg k)) ++
        [Constraint.eq (X 0) (SX.sym Sym.v0),
          Constraint.bounded cfg.u_min ((List.range cfg.N).map U) cfg.u_max] := by
    simp [opti, foldl_hlBuildStep_snd]
  rw [hcs, hlEnv_eq]
  have hX : ∀ k, k ≤ cfg.N →
      SX.eval (envOf (nlp cfg).x (nlp cfg).p xs p) (X k) = xs.getD k 0 :=
    fun k hk => env_X cfg xs p k hk
  have hU : ∀ k, k < cfg.N →
      SX.eval (envOf (nlp cfg).x (nlp cfg).p xs p) (U k) = xs.getD (cfg.N + 1 + k) 0 :=
    fun k hk => env_U cfg xs p k hk
  have hnext : ∀ k, k < cfg.N →
      SX.eval (envOf (nlp cfg).x (nlp cfg).p xs p) (hl_x_next cfg k) =
        xs.getD k 0 + (xs.getD (cfg.N + 1 + k) 0 / cfg.m) * cfg.dt := by
    intro k hk
    rw [← x_next_eq, eval_x_next, env_X cfg xs p k (by omega), env_U cfg xs p k hk]
  constructor
  · rintro ⟨hl, hc⟩
    refine ⟨hl, ⟨?_, fun k hk => ?_⟩, fun k hk => ?_⟩
    · have := hc (Constraint.eq (X 0) (SX.sym Sym.v0)) (by simp)
      simp only [Constraint.Holds] at this
      rw [hX 0 (Nat.zero_le _)] at this
      rw [this]
      exact env_v0 cfg xs p
    · have := hc (Constraint.eq (X (k + 1)) (hl_x_next cfg k))
        (List.mem_append_left _ (List.mem_map.mpr ⟨k, List.mem_range.mpr hk, rfl⟩))
      simp only [Constraint.Holds] at this
      rw [hX (k + 1) hk, hnext k hk] at this
      exact this
    · have := hc (Constraint.bounded cfg.u_min ((List.range cfg.N).map U) cfg.u_max) (by simp)
      simp only [Constraint.Holds] at this
      have h2 := this (U k) (List.mem_map.mpr ⟨k, List.mem_range.mpr hk, rfl⟩)
      rw [hU k hk] at h2
      exact h2
  · rintro ⟨hl, ⟨h0, hd⟩, hb⟩
    refine ⟨hl, fun c hc => ?_⟩
    rcases List.mem_append.mp hc with h | h
    · obtain ⟨k, hk, rfl⟩ := List.mem_map.mp h
      have hk' := List.mem_range.mp hk
      simp only [Constraint.Holds]
      rw [hX (k + 1) hk', hnext k hk']
      exact hd k hk'
    · simp only [List.mem_cons, List.mem_singleton, List.not_mem_nil, or_false] at h
      rcases h with rfl | rfl
      · simp only [Constraint.Holds]
        rw [hX 0 (Nat.zero_le _), h0]
        exact (env_v0 cfg xs p).symm
      · simp only [Constraint.Holds]
        intro e he
        obtain ⟨k, hk, rfl⟩ := List.mem_map.mp he
        have hk' := List.mem_range.mp hk
        rw [hU k hk']
        exact hb k hk'

/-- The two variants have the same feasible set. -/
theorem hlFeasible_iff_feasible [LinearOrderedField K] (cfg : Config K) (x0 xs : List K)
    (p : K) : HlFeasible cfg p xs ↔ Feasible cfg (mkArg cfg x0 p) xs := by
  rw [hlFeasible_iff, feasible_iff]

/-- The value read by the high-level variant is the entry `N + 1` of the vector. -/
theorem hlControl_eq [Field K] (cfg : Config K) (xs : List K) (p : K) :
    hlControl cfg xs p = xs.getD (cfg.N + 1) 0 := by
  unfold hlControl
  rw [hlEnv_eq]
  by_cases hN : 0 < cfg.N
  · have := env_U cfg xs p 0 hN
    simpa [SX.eval, U] using this
  · have h0 : cfg.N = 0 := by omega
    simp [SX.eval, U, envOf, nlp, dict_X, h0]

end Feasibility

section LoopCalls

variable {K : Type}

/-- Invariant of the loop: without a failed read there is one call per tick; after a
failed read there is at least one call; and call number `i` carries the velocity the
plant had after `i` ticks. -/
theorem runTicks_inv [Field K] (cfg : Config K) (solver : Arg K → List K) (n : ℕ) :
    ((runTicks cfg solver n).failed = false → (runTicks cfg solver n).calls.length = n) ∧
    ((runTicks cfg solver n).failed = true → 1 ≤ (runTicks cfg solver n).calls.length) ∧
    ∀ i, i < (runTicks cfg solver n).calls.length →
      (runTicks cfg solver n).calls[i]? =
        some (mkArg cfg (x_init cfg) (runTicks cfg solver i).current_v) := by
  induction n with
  | zero => simp [runTicks_zero]
  | succ n ih =>
    obtain ⟨ih1, ih2, ih3⟩ := ih
    rw [runTicks_succ]
    cases hf : (runTicks cfg solver n).failed with
    | true =>
      rw [tick_failed _ _ _ _ _ hf]
      exact ⟨fun h => (by rw [hf] at h; cases h), fun _ => ih2 hf, ih3⟩
    | false =>
      have hlen := ih1 hf
      have key : ∀ (s : LoopState K),
          s.calls = (runTicks cfg solver n).calls ++
            [mkArg cfg (x_init cfg) (runTicks cfg solver n).current_v] →
          (s.failed = false → s.calls.length = n + 1) ∧ (s.failed = true → 1 ≤ s.calls.length) ∧
          ∀ i, i < s.calls.length →
            s.calls[i]? = some (mkArg cfg (x_init cfg) (runTicks cfg solver i).current_v) := by
        intro s hs
        have hl : s.calls.length = n + 1 := by rw [hs]; simp [hlen]
        refine ⟨fun _ => hl, fun _ => by omega, fun i hi => ?_⟩
        rw [hs]
        by_cases hin : i < n
        · rw [List.getElem?_append_left (by omega)]
          exact ih3 i (by omega)
        · have : i = n := by omega
          subst this
          rw [List.getElem?_append_right (by omega)]
          simp [hlen]
      cases hc : (solver (mkArg cfg (x_init cfg) (runTicks cfg solver n).current_v))[cfg.N + 1]? with
      | none => rw [tick_oob _ _ _ _ _ hf hc]; exact key _ rfl
      | some c => rw [tick_ok _ _ _ _ _ hf c hc]; exact key _ rfl

end LoopCalls

section Vec

variable {K : Type}

theorem vec_length (N : ℕ) (x u : ℕ → K) : (vec N x u).length = N + 1 + N := by
  simp [vec]

theorem vec_state [Zero K] (N : ℕ) (x u : ℕ → K) (k : ℕ) (hk : k ≤ N) :
    (vec N x u).getD k 0 = x k := by
  rw [List.getD_eq_getElem?_getD, vec, List.getElem?_append_left (by simp; omega)]
  simp [List.getElem?_map, List.getElem?_range (show k < N + 1 by omega)]

theorem vec_control [Zero K] (N : ℕ) (x u : ℕ → K) (k : ℕ) (hk : k < N) :
    (vec N x u).getD (N + 1 + k) 0 = u k := by
  rw [List.getD_eq_getElem?_getD, vec, List.getElem?_append_right (by simp)]
  simp [List.getElem?_map, List.getElem?_range hk]

/-- Two vectors of length `2N + 1` with the same states and the same controls are equal. -/
theorem eq_of_entries [Zero K] (N : ℕ) (xs ys : List K) (hx : xs.length = N + 1 + N)
    (hy : ys.length = N + 1 + N) (hs : ∀ k, k ≤ N → xs.getD k 0 = ys.getD k 0)
    (hc : ∀ k, k < N → xs.getD (N + 1 + k) 0 = ys.getD (N + 1 + k) 0) : xs = ys := by
  apply List.ext_getElem (by rw [hx, hy])
  intro i h1 h2
  have key : xs.getD i 0 = ys.getD i 0 := by
    by_cases hi : i ≤ N
    · exact hs i hi
    · have := hc (i - (N + 1)) (by omega)
      rwa [show N + 1 + (i - (N + 1)) = i by omega] at this
  rw [List.getD_eq_getElem?_getD, List.getD_eq_getElem?_getD, List.getElem?_eq_getElem h1,
    List.getElem?_eq_getElem h2] at key
  simpa using key

end Vec

section Optimality

variable {K : Type} [LinearOrderedField K]

/-- Feasibility of a vector is feasibility of its entries as sequences. -/
theorem feasible_iff_feasF (cfg : Config K) (x0 xs : List K) (p : K) :
    Feasible cfg (mkArg cfg x0 p) xs ↔
      xs.length = cfg.N + 1 + cfg.N ∧
      FeasF cfg p (fun k => xs.getD k 0) (fun k => xs.getD (cfg.N + 1 + k) 0) := by
  rw [feasible_iff]
  unfold FeasF
  tauto

theorem cost_eq_costF (cfg : Config K) (xs : List K) (p : K) :
    cost cfg xs p = costF cfg (fun k => xs.getD k 0) (fun k => xs.getD (cfg.N + 1 + k) 0) :=
  cost_eq cfg xs p

/-- Feasible sequences give a feasible vector with the same cost. -/
theorem feasible_vec (cfg : Config K) (x0 : List K) (p : K) (x u : ℕ → K)
    (h : FeasF cfg p x u) :
    Feasible cfg (mkArg cfg x0 p) (vec cfg.N x u) ∧ cost cfg (vec cfg.N x u) p = costF cfg x u := by
  obtain ⟨h0, hd, hb⟩ := h
  constructor
  · rw [feasible_iff]
    refine ⟨vec_length _ _ _, ⟨?_, fun k hk => ?_⟩, fun k hk => ?_⟩
    · rw [vec_state _ _ _ 0 (Nat.zero_le _)]; exact h0
    · rw [vec_state _ _ _ (k + 1) hk, vec_state _ _ _ k (by omega), vec_control _ _ _ k hk]
      exact hd k hk
    · rw [vec_control _ _ _ k hk]; exact hb k hk
  · rw [cost_eq]
    unfold costF
    apply Finset.sum_congr rfl
    intro k hk
    have hk' := Finset.mem_range.mp hk
    rw [vec_state _ _ _ k (by omega), vec_control _ _ _ k hk']

/-- Summation by parts. -/
theorem sum_by_parts (L a : ℕ → K) (n : ℕ) :
    ∑ k in Finset.range n, (L k - L (k + 1)) * a k =
      L 0 * a 0 - L n * a n + ∑ k in Finset.range n, L (k + 1) * (a (k + 1) - a k) := by
  induction n with
  | zero => simp
  | succ n ih =>
    rw [Finset.sum_range_succ, Finset.sum_range_succ, ih]
    ring

theorem tail_succ (cfg : Config K) (x : ℕ → K) (k : ℕ) (hk : k < cfg.N) :
    tail cfg x k = (x k - cfg.v_ref) + tail cfg x (k + 1) := by
  unfold tail
  rw [Finset.sum_eq_sum_Ico_succ_bot hk]

theorem tail_N (cfg : Config K) (x : ℕ → K) : tail cfg x cfg.N = 0 := by
  simp [tail]

/-- The linear part of the cost difference, moved onto the controls. -/
theorem tracking_sum_eq (cfg : Config K) (x a : ℕ → K) (ha : a 0 = 0) :
    ∑ k in Finset.range cfg.N, (x k - cfg.v_ref) * a k =
      ∑ k in Finset.range cfg.N, tail cfg x (k + 1) * (a (k + 1) - a k) := by
  have h := sum_by_parts (tail cfg x) a cfg.N
  rw [ha, tail_N] at h
  rw [← (by simpa using h : _ = ∑ k in Finset.range cfg.N,
    tail cfg x (k + 1) * (a (k + 1) - a k))]
  apply Finset.sum_congr rfl
  intro k hk
  rw [tail_succ cfg x k (Finset.mem_range.mp hk)]
  ring

/-- A feasible stationary pair is optimal, with a quadratic margin in the controls. -/
theorem stationary_lower_bound (cfg : Config K) (p : K)
    (x u y v : ℕ → K) (hxu : FeasF cfg p x u) (hst : Stationary cfg x u)
    (hyv : FeasF cfg p y v) :
    costF cfg x u + cfg.weight * ∑ k in Finset.range cfg.N, (v k - u k) ^ 2 ≤ costF cfg y v := by
  have hkey : ∑ k in Finset.range cfg.N, (x k - cfg.v_ref) * (y k - x k) =
      ∑ k in Finset.range cfg.N, tail cfg x (k + 1) * ((cfg.dt / cfg.m) * (v k - u k)) := by
    rw [tracking_sum_eq cfg x (fun k => y k - x k) (by simp [hxu.1, hyv.1])]
    apply Finset.sum_congr rfl
    intro k hk
    have hk' := Finset.mem_range.mp hk
    show tail cfg x (k + 1) * (y (k + 1) - x (k + 1) - (y k - x k)) = _
    rw [hxu.2.1 k hk', hyv.2.1 k hk']
    ring
  have hgrad : 0 ≤ ∑ k in Finset.range cfg.N,
      (cfg.weight * u k + (cfg.dt / cfg.m) * tail cfg x (k + 1)) * (v k - u k) := by
    apply Finset.sum_nonneg
    intro k hk
    have hk' := Finset.mem_range.mp hk
    rcases hst k hk' with ⟨hu, hle⟩ | h0
    · have : v k - u k ≤ 0 := by rw [hu]; linarith [(hyv.2.2 k hk').2]
      exact mul_nonneg_of_nonpos_of_nonpos hle this
    · rw [h0, zero_mul]
  have hexp : costF cfg y v - costF cfg x u - cfg.weight * ∑ k in Finset.range cfg.N, (v k - u k) ^ 2
      = ∑ k in Finset.range cfg.N, (y k - x k) ^ 2 +
        2 * ∑ k in Finset.range cfg.N,
          (cfg.weight * u k + (cfg.dt / cfg.m) * tail cfg x (k + 1)) * (v k - u k) := by
    have h2 : ∑ k in Finset.range cfg.N,
        (cfg.weight * u k + (cfg.dt / cfg.m) * tail cfg x (k + 1)) * (v k - u k) =
        ∑ k in Finset.range cfg.N, cfg.weight * u k * (v k - u k) +
          ∑ k in Finset.range cfg.N, (x k - cfg.v_ref) * (y k - x k) := by
      rw [hkey, ← Finset.sum_add_distrib]
      apply Finset.sum_congr rfl
      intro k _
      ring
    rw [h2]
    unfold costF
    have hl : ∑ k in Finset.range cfg.N, ((y k - cfg.v_ref) ^ 2 + cfg.weight * v k ^ 2) -
          ∑ k in Finset.range cfg.N, ((x k - cfg.v_ref) ^ 2 + cfg.weight * u k ^ 2) -
        cfg.weight * ∑ k in Finset.range cfg.N, (v k - u k) ^ 2 =
        ∑ k in Finset.range cfg.N,
          (((y k - cfg.v_ref) ^ 2 + cfg.weight * v k ^ 2) -
            ((x k - cfg.v_ref) ^ 2 + cfg.weight * u k ^ 2) - cfg.weight * (v k - u k) ^ 2) := by
      rw [Finset.sum_sub_distrib, Finset.sum_sub_distrib, Finset.mul_sum]
    have hr : ∑ k in Finset.range cfg.N, (y k - x k) ^ 2 +
        2 * (∑ k in Finset.range cfg.N, cfg.weight * u k * (v k - u k) +
          ∑ k in Finset.range cfg.N, (x k - cfg.v_ref) * (y k - x k)) =
        ∑ k in Finset.range cfg.N,
          ((y k - x k) ^ 2 + 2 * (cfg.weight * u k * (v k - u k) +
            (x k - cfg.v_ref) * (y k - x k))) := by
      rw [Finset.sum_add_distrib, ← Finset.mul_sum, Finset.sum_add_distrib]
    rw [hl, hr]
    apply Finset.sum_congr rfl
    intro k _
    ring
  have hsq : 0 ≤ ∑ k in Finset.range cfg.N, (y k - x k) ^ 2 :=
    Finset.sum_nonneg (fun k _ => sq_nonneg _)
  linarith

end Optimality

section Plan

variable {K : Type} [LinearOrderedField K]

theorem sig_nonneg (cfg : Config K) (hw : 0 < cfg.weight) (j : ℕ) : 0 ≤ sig cfg j := by
  induction j with
  | zero => exact le_refl _
  | succ j ih =>
    have hden : 0 < cfg.weight + (cfg.dt / cfg.m) ^ 2 * sig cfg j := by positivity
    have : 0 ≤ cfg.weight * sig cfg j / (cfg.weight + (cfg.dt / cfg.m) ^ 2 * sig cfg j) :=
      div_nonneg (mul_nonneg hw.le ih) hden.le
    show 0 ≤ 1 + _
    linarith

theorem den_pos (cfg : Config K) (hw : 0 < cfg.weight) (j : ℕ) :
    0 < cfg.weight + (cfg.dt / cfg.m) ^ 2 * sig cfg j := by
  have := sig_nonneg cfg hw j
  positivity

theorem sig_mono (cfg : Config K) (hw : 0 < cfg.weight) (j : ℕ) :
    sig cfg j ≤ sig cfg (j + 1) := by
  induction j with
  | zero =>
    show (0 : K) ≤ 1 + _
    simp [sig]
  | succ j ih =>
    show 1 + _ ≤ 1 + _
    have h1 := den_pos cfg hw j
    have h2 := den_pos cfg hw (j + 1)
    have : cfg.weight * sig cfg j / (cfg.weight + (cfg.dt / cfg.m) ^ 2 * sig cfg j) ≤
        cfg.weight * sig cfg (j + 1) /
          (cfg.weight + (cfg.dt / cfg.m) ^ 2 * sig cfg (j + 1)) := by
      rw [div_le_div_iff₀ h1 h2]
      have := mul_le_mul_of_nonneg_left ih (mul_nonneg hw.le hw.le)
      nlinarith
    linarith

theorem gain_nonneg (cfg : Config K) (hc : 0 < cfg.dt / cfg.m) (hw : 0 < cfg.weight) (j : ℕ) :
    0 ≤ gain cfg j :=
  div_nonneg (mul_nonneg hc.le (sig_nonneg cfg hw j)) (den_pos cfg hw j).le

theorem gain_mono (cfg : Config K) (hc : 0 < cfg.dt / cfg.m) (hw : 0 < cfg.weight) (j : ℕ) :
    gain cfg j ≤ gain cfg (j + 1) := by
  unfold gain
  rw [div_le_div_iff₀ (den_pos cfg hw j) (den_pos cfg hw (j + 1))]
  have := mul_le_mul_of_nonneg_left (sig_mono cfg hw j) (mul_nonneg hc.le hw.le)
  nlinarith

/-- One step of unclipped feedback multiplies the error by `w / (w + c² σ)`. -/
theorem one_sub_step_gain (cfg : Config K) (hw : 0 < cfg.weight) (j : ℕ) :
    1 - (cfg.dt / cfg.m) * gain cfg j =
      cfg.weight / (cfg.weight + (cfg.dt / cfg.m) ^ 2 * sig cfg j) := by
  unfold gain
  have := (den_pos cfg hw j).ne'
  generalize cfg.dt / cfg.m = c at this ⊢
  generalize sig cfg j = s at this ⊢
  field_simp
  ring

theorem step_gain_lt_one (cfg : Config K) (hw : 0 < cfg.weight) (j : ℕ) :
    (cfg.dt / cfg.m) * gain cfg j < 1 := by
  have h := one_sub_step_gain cfg hw j
  have : 0 < cfg.weight / (cfg.weight + (cfg.dt / cfg.m) ^ 2 * sig cfg j) :=
    div_pos hw (den_pos cfg hw j)
  linarith

/-- The error after a clipped feedback move stays non-negative. -/
theorem error_after_move_nonneg (cfg : Config K) (hc : 0 < cfg.dt / cfg.m)
    (hw : 0 < cfg.weight) (j : ℕ) (e : K) (he : 0 ≤ e) :
    0 ≤ e - (cfg.dt / cfg.m) * min cfg.u_max (gain cfg j * e) := by
  have h1 : (cfg.dt / cfg.m) * min cfg.u_max (gain cfg j * e) ≤
      (cfg.dt / cfg.m) * (gain cfg j * e) :=
    mul_le_mul_of_nonneg_left (min_le_right _ _) hc.le
  have h2 := step_gain_lt_one cfg hw j
  nlinarith

/-- While the feedback is not clipped, the accumulated error is linear in the first
error. -/
theorem tsum_linear (cfg : Config K) (hc : 0 < cfg.dt / cfg.m) (hw : 0 < cfg.weight) (j : ℕ) :
    ∀ e : K, 0 ≤ e → gain cfg j * e ≤ cfg.u_max → tsum cfg (j + 1) e = sig cfg (j + 1) * e := by
  induction j with
  | zero =>
    intro e _ _
    simp [tsum, sig]
  | succ j ih =>
    intro e he hle
    have hmin : min cfg.u_max (gain cfg (j + 1) * e) = gain cfg (j + 1) * e := min_eq_right hle
    have he' : 0 ≤ e - (cfg.dt / cfg.m) * (gain cfg (j + 1) * e) := by
      have := error_after_move_nonneg cfg hc hw (j + 1) e he
      rwa [hmin] at this
    have hle' : gain cfg j * (e - (cfg.dt / cfg.m) * (gain cfg (j + 1) * e)) ≤ cfg.u_max := by
      have h1 : gain cfg j * (e - (cfg.dt / cfg.m) * (gain cfg (j + 1) * e)) ≤
          gain cfg (j + 1) * e := by
        have hg := gain_mono cfg hc hw j
        have hg0 := gain_nonneg cfg hc hw j
        have hg1 := gain_nonneg cfg hc hw (j + 1)
        have h3 : e - (cfg.dt / cfg.m) * (gain cfg (j + 1) * e) ≤ e := by
          have := mul_nonneg hc.le (mul_nonneg hg1 he)
          linarith
        calc gain cfg j * (e - (cfg.dt / cfg.m) * (gain cfg (j + 1) * e))
            ≤ gain cfg j * e := mul_le_mul_of_nonneg_left h3 hg0
          _ ≤ gain cfg (j + 1) * e := mul_le_mul_of_nonneg_right hg he
      linarith
    have hrec : tsum cfg (j + 2) e =
        e + tsum cfg (j + 1) (e - (cfg.dt / cfg.m) * min cfg.u_max (gain cfg (j + 1) * e)) := rfl
    rw [hrec, hmin, ih _ he' hle']
    have hs : sig cfg (j + 2) = 1 + sig cfg (j + 1) * (1 - (cfg.dt / cfg.m) * gain cfg (j + 1)) := by
      rw [one_sub_step_gain cfg hw (j + 1)]
      show 1 + _ = _
      ring
    rw [hs]
    ring

/-- Optimality condition of one clipped feedback move on a non-negative error. -/
theorem move_stationary (cfg : Config K) (hc : 0 < cfg.dt / cfg.m) (hw : 0 < cfg.weight)
    (hmax : 0 ≤ cfg.u_max) (j : ℕ) :
    ∀ e : K, 0 ≤ e →
      (min cfg.u_max (gain cfg j * e) = cfg.u_max ∧
        cfg.weight * cfg.u_max ≤
          (cfg.dt / cfg.m) * tsum cfg j (e - (cfg.dt / cfg.m) * cfg.u_max)) ∨
      (min cfg.u_max (gain cfg j * e) = gain cfg j * e ∧
        cfg.weight * (gain cfg j * e) =
          (cfg.dt / cfg.m) * tsum cfg j (e - (cfg.dt / cfg.m) * (gain cfg j * e))) := by
  induction j with
  | zero =>
    intro e _
    right
    have hg : gain cfg 0 = 0 := by simp [gain, sig]
    rw [hg, zero_mul, min_eq_right hmax]
    simp [tsum]
  | succ j ih =>
    intro e he
    have hden := den_pos cfg hw (j + 1)
    rcases le_total (gain cfg (j + 1) * e) cfg.u_max with hle | hge
    · right
      refine ⟨min_eq_right hle, ?_⟩
      have he' : 0 ≤ e - (cfg.dt / cfg.m) * (gain cfg (j + 1) * e) := by
        have := error_after_move_nonneg cfg hc hw (j + 1) e he
        rwa [min_eq_right hle] at this
      have hle' : gain cfg j * (e - (cfg.dt / cfg.m) * (gain cfg (j + 1) * e)) ≤ cfg.u_max := by
        have hg := gain_mono cfg hc hw j
        have hg0 := gain_nonneg cfg hc hw j
        have hg1 := gain_nonneg cfg hc hw (j + 1)
        have h3 : e - (cfg.dt / cfg.m) * (gain cfg (j + 1) * e) ≤ e := by
          have := mul_nonneg hc.le (mul_nonneg hg1 he)
          linarith
        calc gain cfg j * (e - (cfg.dt / cfg.m) * (gain cfg (j + 1) * e))
            ≤ gain cfg j * e := mul_le_mul_of_nonneg_left h3 hg0
          _ ≤ gain cfg (j + 1) * e := mul_le_mul_of_nonneg_right hg he
          _ ≤ cfg.u_max := hle
      rw [tsum_linear cfg hc hw j _ he' hle']
      have h1 : e - (cfg.dt / cfg.m) * (gain cfg (j + 1) * e) =
          (1 - (cfg.dt / cfg.m) * gain cfg (j + 1)) * e := by ring
      rw [h1, one_sub_step_gain cfg hw (j + 1)]
      unfold gain
      have hne := hden.ne'
      generalize cfg.dt / cfg.m = c at hne ⊢
      generalize sig cfg (j + 1) = s at hne ⊢
      field_simp
      ring
    · left
      refine ⟨min_eq_left hge, ?_⟩
      have hstep := step_gain_lt_one cfg hw (j + 1)
      have he' : 0 ≤ e - (cfg.dt / cfg.m) * cfg.u_max := by
        have := mul_le_mul_of_nonneg_left hge hc.le
        nlinarith
      have hrec : tsum cfg (j + 1) (e - (cfg.dt / cfg.m) * cfg.u_max) =
          (e - (cfg.dt / cfg.m) * cfg.u_max) +
            tsum cfg j ((e - (cfg.dt / cfg.m) * cfg.u_max) -
              (cfg.dt / cfg.m) *
                min cfg.u_max (gain cfg j * (e - (cfg.dt / cfg.m) * cfg.u_max))) := rfl
      rcases ih _ he' with ⟨hm, hsat⟩ | ⟨hm, _⟩
      · rw [hrec, hm]
        have := mul_nonneg hc.le he'
        nlinarith
      · have hle' : gain cfg j * (e - (cfg.dt / cfg.m) * cfg.u_max) ≤ cfg.u_max := by
          rw [← hm]; exact min_le_left _ _
        rw [tsum_linear cfg hc hw j _ he' hle']
        have hge' : cfg.u_max * (cfg.weight + (cfg.dt / cfg.m) ^ 2 * sig cfg (j + 1)) ≤
            (cfg.dt / cfg.m) * sig cfg (j + 1) * e := by
          have : cfg.u_max ≤ (cfg.dt / cfg.m) * sig cfg (j + 1) * e /
              (cfg.weight + (cfg.dt / cfg.m) ^ 2 * sig cfg (j + 1)) := by
            have h := hge
            unfold gain at h
            rwa [div_mul_eq_mul_div] at h
          rwa [le_div_iff₀ hden] at this
        nlinarith

end Plan

section PlanOptimal

variable {K : Type} [LinearOrderedField K]

theorem planState_succ (cfg : Config K) (p : K) (k : ℕ) :
    planState cfg p (k + 1) = planState cfg p k + (planControl cfg p k / cfg.m) * cfg.dt := rfl

/-- Error recursion of the explicit solution. -/
theorem plan_error_succ (cfg : Config K) (p : K) (k : ℕ) :
    cfg.v_ref - planState cfg p (k + 1) =
      (cfg.v_ref - planState cfg p k) -
        (cfg.dt / cfg.m) *
          min cfg.u_max (gain cfg (cfg.N - 1 - k) * (cfg.v_ref - planState cfg p k)) := by
  rw [planState_succ]
  unfold planControl
  ring

theorem plan_error_nonneg (cfg : Config K) (hc : 0 < cfg.dt / cfg.m) (hw : 0 < cfg.weight)
    (p : K) (hp : p ≤ cfg.v_ref) (k : ℕ) : 0 ≤ cfg.v_ref - planState cfg p k := by
  induction k with
  | zero => exact sub_nonneg.mpr hp
  | succ k ih =>
    rw [plan_error_succ]
    exact error_after_move_nonneg cfg hc hw _ _ ih

theorem planControl_bounds (cfg : Config K) (hc : 0 < cfg.dt / cfg.m) (hw : 0 < cfg.weight)
    (hmax : 0 ≤ cfg.u_max) (p : K) (hp : p ≤ cfg.v_ref) (k : ℕ) :
    0 ≤ planControl cfg p k ∧ planControl cfg p k ≤ cfg.u_max :=
  ⟨le_min hmax (mul_nonneg (gain_nonneg cfg hc hw _) (plan_error_nonneg cfg hc hw p hp k)),
    min_le_left _ _⟩

theorem plan_feasF (cfg : Config K) (hc : 0 < cfg.dt / cfg.m) (hw : 0 < cfg.weight)
    (hmin : cfg.u_min ≤ 0) (hmax : 0 ≤ cfg.u_max) (p : K) (hp : p ≤ cfg.v_ref) :
    FeasF cfg p (planState cfg p) (planControl cfg p) :=
  ⟨rfl, fun k _ => planState_succ cfg p k, fun k _ =>
    ⟨le_trans hmin (planControl_bounds cfg hc hw hmax p hp k).1,
      (planControl_bounds cfg hc hw hmax p hp k).2⟩⟩

/-- The costate of the explicit solution is the accumulated error, negated. -/
theorem plan_tail (cfg : Config K) (p : K) (j : ℕ) (hj : j ≤ cfg.N) :
    tail cfg (planState cfg p) (cfg.N - j) =
      - tsum cfg j (cfg.v_ref - planState cfg p (cfg.N - j)) := by
  induction j with
  | zero => simp [tail_N, tsum]
  | succ j ih =>
    have hk : cfg.N - (j + 1) < cfg.N := by omega
    have hk1 : cfg.N - (j + 1) + 1 = cfg.N - j := by omega
    have hj' : cfg.N - 1 - (cfg.N - (j + 1)) = j := by omega
    rw [tail_succ cfg _ _ hk, hk1, ih (by omega)]
    have hrec : tsum cfg (j + 1) (cfg.v_ref - planState cfg p (cfg.N - (j + 1))) =
        (cfg.v_ref - planState cfg p (cfg.N - (j + 1))) +
          tsum cfg j ((cfg.v_ref - planState cfg p (cfg.N - (j + 1))) -
            (cfg.dt / cfg.m) * min cfg.u_max
              (gain cfg j * (cfg.v_ref - planState cfg p (cfg.N - (j + 1))))) := rfl
    rw [hrec, ← hk1, plan_error_succ, hj']
    ring

theorem plan_stationary (cfg : Config K) (hc : 0 < cfg.dt / cfg.m) (hw : 0 < cfg.weight)
    (hmax : 0 ≤ cfg.u_max) (p : K) (hp : p ≤ cfg.v_ref) :
    Stationary cfg (planState cfg p) (planControl cfg p) := by
  intro k hk
  have hj : cfg.N - (cfg.N - 1 - k) = k + 1 := by omega
  have ht := plan_tail cfg p (cfg.N - 1 - k) (by omega)
  rw [hj, plan_error_succ] at ht
  rw [ht]
  have he := plan_error_nonneg cfg hc hw p hp k
  unfold planControl
  rcases move_stationary cfg hc hw hmax (cfg.N - 1 - k) _ he with ⟨hm, h⟩ | ⟨hm, h⟩
  · left
    rw [hm]
    exact ⟨rfl, by linarith⟩
  · right
    rw [hm]
    linarith

/-- The explicit solution is an exact minimiser of the low-level problem. -/
theorem exactSolve_isMinimiser (cfg : Config K) (hc : 0 < cfg.dt / cfg.m)
    (hw : 0 < cfg.weight) (hmin : cfg.u_min ≤ 0) (hmax : 0 ≤ cfg.u_max) (x0 : List K) (p : K)
    (hp : p ≤ cfg.v_ref) :
    IsMinimiser cfg (mkArg cfg x0 p) (exactSolve cfg (mkArg cfg x0 p)) := by
  have hf := plan_feasF cfg hc hw hmin hmax p hp
  have hv := feasible_vec cfg x0 p _ _ hf
  refine ⟨hv.1, fun ys hy => ?_⟩
  have hy' := ((feasible_iff_feasF cfg x0 ys p).mp hy).2
  have hlb := stationary_lower_bound cfg p _ _ _ _ hf
    (plan_stationary cfg hc hw hmax p hp) hy'
  have hsq : 0 ≤ cfg.weight * ∑ k in Finset.range cfg.N,
      (ys.getD (cfg.N + 1 + k) 0 - planControl cfg p k) ^ 2 :=
    mul_nonneg hw.le (Finset.sum_nonneg (fun k _ => sq_nonneg _))
  show cost cfg (vec cfg.N (planState cfg p) (planControl cfg p)) p ≤ cost cfg ys p
  rw [hv.2, cost_eq_costF cfg ys p]
  linarith

/-- Every exact minimiser has the controls of the explicit solution. -/
theorem minimiser_controls (cfg : Config K) (hc : 0 < cfg.dt / cfg.m) (hw : 0 < cfg.weight)
    (hmin : cfg.u_min ≤ 0) (hmax : 0 ≤ cfg.u_max) (x0 : List K) (p : K) (hp : p ≤ cfg.v_ref)
    (xs : List K) (hxs : IsMinimiser cfg (mkArg cfg x0 p) xs) (k : ℕ) (hk : k < cfg.N) :
    xs.getD (cfg.N + 1 + k) 0 = planControl cfg p k := by
  have hf := plan_feasF cfg hc hw hmin hmax p hp
  have hv := feasible_vec cfg x0 p _ _ hf
  have hx' := ((feasible_iff_feasF cfg x0 xs p).mp hxs.1).2
  have hlb := stationary_lower_bound cfg p _ _ _ _ hf
    (plan_stationary cfg hc hw hmax p hp) hx'
  have hle : cost cfg xs p ≤ cost cfg (vec cfg.N (planState cfg p) (planControl cfg p)) p :=
    hxs.2 _ hv.1
  rw [hv.2, cost_eq_costF cfg xs p] at hle
  have hsum : ∑ i in Finset.range cfg.N,
      (xs.getD (cfg.N + 1 + i) 0 - planControl cfg p i) ^ 2 ≤ 0 := by
    by_contra hpos
    have := mul_pos hw (lt_of_not_le hpos)
    linarith
  have hz := (Finset.sum_eq_zero_iff_of_nonneg (fun i _ => sq_nonneg _)).mp
    (le_antisymm hsum (Finset.sum_nonneg (fun i _ => sq_nonneg _))) k (Finset.mem_range.mpr hk)
  have := pow_eq_zero_iff (two_ne_zero) |>.mp hz
  linarith

end PlanOptimal

section ClosedLoop

variable {K : Type} [LinearOrderedField K]

theorem sig_ge_one (cfg : Config K) (hw : 0 < cfg.weight) (j : ℕ) : 1 ≤ sig cfg (j + 1) := by
  have hden := den_pos cfg hw j
  have : 0 ≤ cfg.weight * sig cfg j / (cfg.weight + (cfg.dt / cfg.m) ^ 2 * sig cfg j) :=
    div_nonneg (mul_nonneg hw.le (sig_nonneg cfg hw j)) hden.le
  show 1 ≤ 1 + _
  linarith

/-- The first control of every exact minimiser is the clipped feedback on the error. -/
theorem minimiser_first_control (cfg : Config K) (hc : 0 < cfg.dt / cfg.m)
    (hw : 0 < cfg.weight) (hmin : cfg.u_min ≤ 0) (hmax : 0 ≤ cfg.u_max) (hN : 1 ≤ cfg.N)
    (x0 : List K) (p : K) (hp : p ≤ cfg.v_ref) (xs : List K)
    (hxs : IsMinimiser cfg (mkArg cfg x0 p) xs) :
    xs.getD (cfg.N + 1) 0 = min cfg.u_max (gain cfg (cfg.N - 1) * (cfg.v_ref - p)) :=
  minimiser_controls cfg hc hw hmin hmax x0 p hp xs hxs 0 hN

/-- One tick of the closed loop with an exact minimiser, for a velocity below `v_ref`:
the velocity does not decrease, stays below `v_ref`, and the error either drops by the
largest admissible step or shrinks by the factor `w / (w + c²)`, `c = dt / m`. -/
theorem closed_loop_step (cfg : Config K) (hc : 0 < cfg.dt / cfg.m)
    (hw : 0 < cfg.weight) (hmin : cfg.u_min ≤ 0) (hmax : 0 ≤ cfg.u_max) (hN : 2 ≤ cfg.N)
    (x0 : List K) (p : K) (hp : p ≤ cfg.v_ref) (xs : List K)
    (hxs : IsMinimiser cfg (mkArg cfg x0 p) xs) :
    p ≤ p + (xs.getD (cfg.N + 1) 0 / cfg.m) * cfg.dt ∧
    p + (xs.getD (cfg.N + 1) 0 / cfg.m) * cfg.dt ≤ cfg.v_ref ∧
    (cfg.v_ref - (p + (xs.getD (cfg.N + 1) 0 / cfg.m) * cfg.dt) =
        cfg.v_ref - p - (cfg.dt / cfg.m) * cfg.u_max ∨
      cfg.v_ref - (p + (xs.getD (cfg.N + 1) 0 / cfg.m) * cfg.dt) ≤
        cfg.weight / (cfg.weight + (cfg.dt / cfg.m) ^ 2) * (cfg.v_ref - p)) := by
  have hu := minimiser_first_control cfg hc hw hmin hmax (by omega) x0 p hp xs hxs
  have he : 0 ≤ cfg.v_ref - p := sub_nonneg.mpr hp
  have hg := gain_nonneg cfg hc hw (cfg.N - 1)
  have hstep : (xs.getD (cfg.N + 1) 0 / cfg.m) * cfg.dt =
      (cfg.dt / cfg.m) * min cfg.u_max (gain cfg (cfg.N - 1) * (cfg.v_ref - p)) := by
    rw [hu]; ring
  rw [hstep]
  have hnn := error_after_move_nonneg cfg hc hw (cfg.N - 1) _ he
  have hu0 : 0 ≤ min cfg.u_max (gain cfg (cfg.N - 1) * (cfg.v_ref - p)) :=
    le_min hmax (mul_nonneg hg he)
  refine ⟨by have := mul_nonneg hc.le hu0; linarith, by linarith, ?_⟩
  rcases le_total cfg.u_max (gain cfg (cfg.N - 1) * (cfg.v_ref - p)) with h | h
  · left
    rw [min_eq_left h]; ring
  · right
    rw [min_eq_right h]
    have h1 : cfg.v_ref - (p + (cfg.dt / cfg.m) * (gain cfg (cfg.N - 1) * (cfg.v_ref - p))) =
        (1 - (cfg.dt / cfg.m) * gain cfg (cfg.N - 1)) * (cfg.v_ref - p) := by ring
    rw [h1, one_sub_step_gain cfg hw]
    apply mul_le_mul_of_nonneg_right _ he
    have hs : 1 ≤ sig cfg (cfg.N - 1) := by
      have := sig_ge_one cfg hw (cfg.N - 2)
      rwa [show cfg.N - 2 + 1 = cfg.N - 1 by omega] at this
    have hc2 : 0 < (cfg.dt / cfg.m) ^ 2 := by positivity
    apply div_le_div_of_nonneg_left hw.le (by positivity)
    nlinarith

/-- The iteration `e ↦ max (e - 1/5) (45/47 e)` started at `250/9` is below `5/18`
after 181 steps: a sequence dominated by it settles before tick 200. -/
theorem settle_of_steps (r : K) (hr : r = 250 / 9) (v : ℕ → K) (h0 : v 0 = 0)
    (hstep : ∀ i, i < 200 → v i ≤ r →
      v i ≤ v (i + 1) ∧ v (i + 1) ≤ r ∧
        (r - v (i + 1) = r - v i - 1 / 5 ∨ r - v (i + 1) ≤ 45 / 47 * (r - v i))) :
    (∀ i, i < 200 → v i ≤ v (i + 1)) ∧ (∀ i, i ≤ 200 → v i ≤ r) ∧
      ∀ i, 181 ≤ i → i ≤ 200 → r - 5 / 18 ≤ v i := by
  have hbelow : ∀ i, i ≤ 200 → v i ≤ r := by
    intro i
    induction i with
    | zero => intro _; rw [h0, hr]; norm_num
    | succ i ih => intro hi; exact (hstep i (by omega) (ih (by omega))).2.1
  have hmono : ∀ i, i < 200 → v i ≤ v (i + 1) :=
    fun i hi => (hstep i hi (hbelow i (by omega))).1
  have hphase1 : ∀ i, i ≤ 116 → r - v i ≤ 250 / 9 - (i : K) / 5 := by
    intro i
    induction i with
    | zero => intro _; rw [h0, hr]; norm_num
    | succ i ih =>
      intro hi
      have hb := ih (by omega)
      have hiK : (i : K) ≤ 115 := by exact_mod_cast (show i ≤ 115 by omega)
      push_cast
      rcases (hstep i (by omega) (hbelow i (by omega))).2.2 with h | h
      · linarith
      · linarith
  have hphase2 : ∀ n, 116 + n ≤ 200 → r - v (116 + n) ≤ 206 / 45 * (45 / 47) ^ n := by
    intro n
    induction n with
    | zero =>
      intro _
      have := hphase1 116 (le_refl _)
      norm_num at this ⊢
      linarith
    | succ n ih =>
      intro hn
      have hb := ih (by omega)
      have hpow : (45 / 47 : K) ^ n ≤ 1 := pow_le_one₀ (by norm_num) (by norm_num)
      have hpos : (0 : K) ≤ (45 / 47) ^ n := by positivity
      rw [pow_succ]
      rcases (hstep (116 + n) (by omega) (hbelow _ (by omega))).2.2 with h | h
      · rw [show 116 + (n + 1) = 116 + n + 1 by omega]
        nlinarith
      · rw [show 116 + (n + 1) = 116 + n + 1 by omega]
        nlinarith
  refine ⟨hmono, hbelow, ?_⟩
  have h181 : r - 5 / 18 ≤ v 181 := by
    have := hphase2 65 (by norm_num)
    have hnum : (206 / 45 : K) * (45 / 47) ^ 65 ≤ 5 / 18 := by norm_num
    have h2 : r - v (116 + 65) ≤ 5 / 18 := le_trans this hnum
    have h3 : (116 + 65 : ℕ) = 181 := rfl
    rw [h3] at h2
    linarith
  intro i hi1 hi2
  have : ∀ d, 181 + d ≤ 200 → v 181 ≤ v (181 + d) := by
    intro d
    induction d with
    | zero => intro _; exact le_refl _
    | succ d ih =>
      intro hd
      exact le_trans (ih (by omega)) (hmono (181 + d) (by omega))
  have h4 := this (i - 181) (by omega)
  rw [show 181 + (i - 181) = i by omega] at h4
  linarith

end ClosedLoop

section ReferenceRun

variable {K : Type} [LinearOrderedField K]

theorem reference_step_gain : (Config.reference K).dt / (Config.reference K).m = 1 / 15000 := by
  simp only [Config.reference]; norm_num

theorem reference_v_ref : (Config.reference K).v_ref = 250 / 9 := by
  simp only [Config.reference]; norm_num

/-- A tick whose returned vector is feasible reads its control successfully. -/
theorem runTicks_step_feasible (cfg : Config K) (hN : 1 ≤ cfg.N) (solver : Arg K → List K)
    (n : ℕ) (hf : (runTicks cfg solver n).failed = false)
    (hfeas : Feasible cfg (mkArg cfg (x_init cfg) (velocity cfg solver n))
      (solver (mkArg cfg (x_init cfg) (velocity cfg solver n)))) :
    (runTicks cfg solver (n + 1)).failed = false ∧
    velocity cfg solver (n + 1) =
      velocity cfg solver n +
        ((solver (mkArg cfg (x_init cfg) (velocity cfg solver n))).getD (cfg.N + 1) 0 / cfg.m) *
          cfg.dt := by
  have hlen := hfeas.1
  rw [nlp_x_length] at hlen
  have hlt : cfg.N + 1 <
      (solver (mkArg cfg (x_init cfg) (runTicks cfg solver n).current_v)).length := by
    unfold velocity at hlen; omega
  have hc := List.getElem?_eq_getElem hlt
  unfold velocity
  rw [runTicks_succ, tick_ok _ _ _ _ _ hf _ hc, List.getD_eq_getElem?_getD, hc]
  exact ⟨rfl, rfl⟩

theorem runTicks_not_failed (cfg : Config K) (hN : 1 ≤ cfg.N) (solver : Arg K → List K) (T : ℕ)
    (hfeas : ∀ i, i < T → Feasible cfg (mkArg cfg (x_init cfg) (velocity cfg solver i))
      (solver (mkArg cfg (x_init cfg) (velocity cfg solver i)))) :
    ∀ n, n ≤ T → (runTicks cfg solver n).failed = false := by
  intro n
  induction n with
  | zero => intro _; rfl
  | succ n ih =>
    intro hn
    exact (runTicks_step_feasible cfg hN solver n (ih (by omega)) (hfeas n (by omega))).1

theorem hlVelocity_succ (cfg : Config K) (solve : ℕ → K → List K) (n : ℕ) :
    hlVelocity cfg solve (n + 1) =
      hlVelocity cfg solve n +
        ((solve n (hlVelocity cfg solve n)).getD (cfg.N + 1) 0 / cfg.m) * cfg.dt := by
  unfold hlVelocity hlRunTicks
  rw [List.range_succ, List.foldl_append]
  simp only [List.foldl_cons, List.foldl_nil, hlTick, hlControl_eq]

theorem hlIsMinimiser_iff (cfg : Config K) (x0 xs : List K) (p : K) :
    HlIsMinimiser cfg p xs ↔ IsMinimiser cfg (mkArg cfg x0 p) xs := by
  unfold HlIsMinimiser IsMinimiser
  rw [hlFeasible_iff_feasible cfg x0 xs p, hlCost_eq_cost]
  constructor
  · rintro ⟨hf, hmin⟩
    refine ⟨hf, fun ys hy => ?_⟩
    have := hmin ys ((hlFeasible_iff_feasible cfg x0 ys p).mpr hy)
    rwa [hlCost_eq_cost] at this
  · rintro ⟨hf, hmin⟩
    refine ⟨hf, fun ys hy => ?_⟩
    rw [hlCost_eq_cost]
    exact hmin ys ((hlFeasible_iff_feasible cfg x0 ys p).mp hy)

/-- One closed-loop tick of the reference configuration, in numbers. -/
theorem reference_closed_loop_step (p : K) (hp : p ≤ 250 / 9) (xs : List K)
    (hxs : IsMinimiser (Config.reference K)
      (mkArg (Config.reference K) (x_init (Config.reference K)) p) xs) :
    p ≤ p + (xs.getD ((Config.reference K).N + 1) 0 / (Config.reference K).m) *
        (Config.reference K).dt ∧
    p + (xs.getD ((Config.reference K).N + 1) 0 / (Config.reference K).m) *
        (Config.reference K).dt ≤ 250 / 9 ∧
    ((250 / 9 : K) - (p + (xs.getD ((Config.reference K).N + 1) 0 / (Config.reference K).m) *
        (Config.reference K).dt) = 250 / 9 - p - 1 / 5 ∨
      (250 / 9 : K) - (p + (xs.getD ((Config.reference K).N + 1) 0 / (Config.reference K).m) *
        (Config.reference K).dt) ≤ 45 / 47 * (250 / 9 - p)) := by
  have h := closed_loop_step (Config.reference K)
    (by rw [reference_step_gain]; norm_num) (by simp only [Config.reference]; norm_num)
    (by simp only [Config.reference]; norm_num) (by simp only [Config.reference]; norm_num)
    (by simp only [Config.reference]; norm_num) _ p (by rw [reference_v_ref]; exact hp) xs hxs
  rw [reference_step_gain, reference_v_ref] at h
  have h1 : (1 / 15000 : K) * (Config.reference K).u_max = 1 / 5 := by
    simp only [Config.reference]; norm_num
  have h2 : (Config.reference K).weight / ((Config.reference K).weight + (1 / 15000 : K) ^ 2) =
      45 / 47 := by
    simp only [Config.reference]; norm_num
  rw [h1, h2] at h
  exact h

end ReferenceRun

section ExactRun

variable {K : Type} [LinearOrderedField K]

/-- Settling of the low-level loop of the reference configuration under exact solves. -/
theorem reference_run_settles (solver : Arg K → List K)
    (hexact : ∀ i, i < 200 →
      IsMinimiser (Config.reference K)
        (mkArg (Config.reference K) (x_init (Config.reference K))
          (velocity (Config.reference K) solver i))
        (solver (mkArg (Config.reference K) (x_init (Config.reference K))
          (velocity (Config.reference K) solver i)))) :
    (∀ n, n ≤ 200 → (runTicks (Config.reference K) solver n).failed = false) ∧
    (∀ i, i < 200 →
      velocity (Config.reference K) solver i ≤ velocity (Config.reference K) solver (i + 1)) ∧
    (∀ i, i ≤ 200 → velocity (Config.reference K) solver i ≤ 250 / 9) ∧
    ∀ i, 181 ≤ i → i ≤ 200 → (250 / 9 : K) - 5 / 18 ≤ velocity (Config.reference K) solver i := by
  have hN : 1 ≤ (Config.reference K).N := by simp [Config.reference]
  have hnf := runTicks_not_failed (Config.reference K) hN solver 200
    (fun i hi => (hexact i hi).1)
  refine ⟨hnf, ?_⟩
  apply settle_of_steps (250 / 9 : K) rfl (velocity (Config.reference K) solver) rfl
  intro i hi hle
  rw [(runTicks_step_feasible (Config.reference K) hN solver i (hnf i (by omega))
    (hexact i hi).1).2]
  exact reference_closed_loop_step _ hle _ (hexact i hi)

/-- Settling of the high-level loop of the reference configuration under exact solves. -/
theorem reference_hl_run_settles (solve : ℕ → K → List K)
    (hexact : ∀ i, i < 200 →
      HlIsMinimiser (Config.reference K) (hlVelocity (Config.reference K) solve i)
        (solve i (hlVelocity (Config.reference K) solve i))) :
    (∀ i, i < 200 →
      hlVelocity (Config.reference K) solve i ≤ hlVelocity (Config.reference K) solve (i + 1)) ∧
    (∀ i, i ≤ 200 → hlVelocity (Config.reference K) solve i ≤ 250 / 9) ∧
    ∀ i, 181 ≤ i → i ≤ 200 →
      (250 / 9 : K) - 5 / 18 ≤ hlVelocity (Config.reference K) solve i := by
  apply settle_of_steps (250 / 9 : K) rfl (hlVelocity (Config.reference K) solve) rfl
  intro i hi hle
  rw [hlVelocity_succ]
  exact reference_closed_loop_step _ hle _
    ((hlIsMinimiser_iff (Config.reference K) (x_init (Config.reference K)) _ _).mp (hexact i hi))

/-- The first control of the explicit solver's output. -/
theorem exactSolve_control (cfg : Config K) (hN : 1 ≤ cfg.N) (a : Arg K) :
    (exactSolve cfg a).getD (cfg.N + 1) 0 = planControl cfg a.p 0 :=
  vec_control cfg.N _ _ 0 hN

theorem exactSolve_length (cfg : Config K) (a : Arg K) :
    (exactSolve cfg a).length = cfg.N + 1 + cfg.N := vec_length _ _ _

/-- Driven by the explicit solver, the low-level loop stays below `v_ref`. -/
theorem exact_run_below (cfg : Config K) (hc : 0 < cfg.dt / cfg.m) (hw : 0 < cfg.weight)
    (hN : 1 ≤ cfg.N) (h0 : cfg.v_init ≤ cfg.v_ref) (n : ℕ) :
    velocity cfg (exactSolve cfg) n ≤ cfg.v_ref := by
  induction n with
  | zero => exact h0
  | succ n ih =>
    have hsol : ∀ a, cfg.N + 1 < (exactSolve cfg a).length := by
      intro a; rw [exactSolve_length]; omega
    unfold velocity at ih ⊢
    rw [runTicks_current_v cfg _ hsol n, exactSolve_control cfg hN]
    have := plan_error_nonneg cfg hc hw _ ih 1
    rw [planState_succ] at this
    exact sub_nonneg.mp this

/-- Driven by the explicit solver, the high-level loop stays below `v_ref`. -/
theorem exact_hl_run_below (cfg : Config K) (hc : 0 < cfg.dt / cfg.m) (hw : 0 < cfg.weight)
    (hN : 1 ≤ cfg.N) (h0 : cfg.v_init ≤ cfg.v_ref) (x0 : List K) (n : ℕ) :
    hlVelocity cfg (fun _ p => exactSolve cfg (mkArg cfg x0 p)) n ≤ cfg.v_ref := by
  induction n with
  | zero => exact h0
  | succ n ih =>
    rw [hlVelocity_succ, exactSolve_control cfg hN]
    have := plan_error_nonneg cfg hc hw _ ih 1
    rw [planState_succ] at this
    exact sub_nonneg.mp this

/-- The explicit solver returns an exact minimiser in every tick of the low-level loop of
the reference configuration. -/
theorem exactSolve_exact_along_run (i : ℕ) :
    IsMinimiser (Config.reference K)
      (mkArg (Config.reference K) (x_init (Config.reference K))
        (velocity (Config.reference K) (exactSolve (Config.reference K)) i))
      (exactSolve (Config.reference K)
        (mkArg (Config.reference K) (x_init (Config.reference K))
          (velocity (Config.reference K) (exactSolve (Config.reference K)) i))) :=
  exactSolve_isMinimiser (Config.reference K)
    (by rw [reference_step_gain]; norm_num) (by simp only [Config.reference]; norm_num)
    (by simp only [Config.reference]; norm_num) (by simp only [Config.reference]; norm_num) _ _
    (exact_run_below (Config.reference K) (by rw [reference_step_gain]; norm_num)
      (by simp only [Config.reference]; norm_num) (by simp [Config.reference])
      (by simp only [Config.reference]; norm_num) i)

/-- The explicit solver returns an exact minimiser in every tick of the high-level loop
of the reference configuration. -/
theorem exactSolve_exact_along_hl_run (i : ℕ) :
    HlIsMinimiser (Config.reference K)
      (hlVelocity (Config.reference K)
        (fun _ p => exactSolve (Config.reference K)
          (mkArg (Config.reference K) (x_init (Config.reference K)) p)) i)
      (exactSolve (Config.reference K)
        (mkArg (Config.reference K) (x_init (Config.reference K))
          (hlVelocity (Config.reference K)
            (fun _ p => exactSolve (Config.reference K)
              (mkArg (Config.reference K) (x_init (Config.reference K)) p)) i))) :=
  (hlIsMinimiser_iff (Config.reference K) (x_init (Config.reference K)) _ _).mpr
    (exactSolve_isMinimiser (Config.reference K)
      (by rw [reference_step_gain]; norm_num) (by simp only [Config.reference]; norm_num)
      (by simp only [Config.reference]; norm_num) (by simp only [Config.reference]; norm_num) _ _
      (exact_hl_run_below (Config.reference K) (by rw [reference_step_gain]; norm_num)
        (by simp only [Config.reference]; norm_num) (by simp [Config.reference])
        (by simp only [Config.reference]; norm_num) _ i))

end ExactRun

section Uniqueness

variable {K : Type} [LinearOrderedField K]

end Uniqueness

/-! ## Claims -/

section Claims

variable {K : Type} [LinearOrderedField K]

/-- C1 (low-level variant): the constraint vector `g` has `N + 1` entries, and with
`lbg = ubg = 0` it is satisfied exactly when `X[0] = v0` and
`X[k+1] = X[k] + (U[k] / m) * dt` for every `k < N`; stated for every assignment of the
symbols and for every numeric decision vector in the layout of `dict_X`. -/
theorem C1_g_zero_iff_initial_and_euler (cfg : Config K) :
    (g cfg).length = cfg.N + 1 ∧
    (∀ σ : Sym → K,
      (∀ e ∈ g cfg,
          (mkArg cfg (x_init cfg) (σ Sym.v0)).lbg ≤ SX.eval σ e ∧
            SX.eval σ e ≤ (mkArg cfg (x_init cfg) (σ Sym.v0)).ubg) ↔
        σ (Sym.X 0) = σ Sym.v0 ∧ ∀ k, k < cfg.N →
          σ (Sym.X (k + 1)) = σ (Sym.X k) + (σ (Sym.U k) / cfg.m) * cfg.dt) ∧
    (∀ (xs : List K) (p : K),
      (gValues cfg xs p).length = cfg.N + 1 ∧
      ((∀ r ∈ gValues cfg xs p,
          (mkArg cfg (x_init cfg) p).lbg ≤ r ∧ r ≤ (mkArg cfg (x_init cfg) p).ubg) ↔
        xs.getD 0 0 = p ∧ ∀ k, k < cfg.N →
          xs.getD (k + 1) 0 =
            xs.getD k 0 + (xs.getD (cfg.N + 1 + k) 0 / cfg.m) * cfg.dt)) := by
  refine ⟨by simp [g_eq], fun σ => ?_, fun xs p => ⟨by simp [gValues_eq], ?_⟩⟩
  · rw [← g_zero_iff]
    simp only [mkArg, le_zero_and_ge_zero_iff]
  · rw [← gValues_zero_iff]
    simp only [mkArg, le_zero_and_ge_zero_iff]

/-- C2: in both variants the cost is `Σ_{k<N} (X[k] - v_ref)^2 + weight * U[k]^2`
(`weight` is `1e-7` in the source); the terminal state `X[N]` does not occur in it, so
assignments, or decision vectors, that differ only in `X[N]` have the same cost. -/
theorem C2_cost_is_stage_sum (cfg : Config K) :
    (∀ σ : Sym → K,
      SX.eval σ (J cfg) = ∑ k in Finset.range cfg.N,
        ((σ (Sym.X k) - cfg.v_ref) ^ 2 + cfg.weight * σ (Sym.U k) ^ 2) ∧
      SX.eval σ (opti cfg).f = ∑ k in Finset.range cfg.N,
        ((σ (Sym.X k) - cfg.v_ref) ^ 2 + cfg.weight * σ (Sym.U k) ^ 2)) ∧
    (∀ σ τ : Sym → K, (∀ s, s ≠ Sym.X cfg.N → σ s = τ s) →
      SX.eval σ (J cfg) = SX.eval τ (J cfg) ∧
      SX.eval σ (opti cfg).f = SX.eval τ (opti cfg).f) ∧
    (∀ (xs ys : List K) (p : K), (∀ j, j ≠ cfg.N → xs.getD j 0 = ys.getD j 0) →
      cost cfg xs p = cost cfg ys p ∧ hlCost cfg xs p = hlCost cfg ys p) := by
  have hhl : ∀ σ : Sym → K, SX.eval σ (opti cfg).f = SX.eval σ (J cfg) := by
    intro σ
    rw [eval_J]
    simp [opti, foldl_hlBuildStep_fst, SX.eval, eval_stageCost]
  refine ⟨fun σ => ⟨eval_J cfg σ, by rw [hhl, eval_J]⟩, fun σ τ h => ?_, fun xs ys p h => ?_⟩
  · have hJ : SX.eval σ (J cfg) = SX.eval τ (J cfg) := by
      rw [eval_J, eval_J]
      apply Finset.sum_congr rfl
      intro k hk
      have hk' := Finset.mem_range.mp hk
      rw [h (Sym.X k) (by intro e; injection e; omega), h (Sym.U k) (by intro e; cases e)]
    exact ⟨hJ, by rw [hhl, hhl, hJ]⟩
  · have hc : cost cfg xs p = cost cfg ys p := by
      rw [cost_eq, cost_eq]
      apply Finset.sum_congr rfl
      intro k hk
      have hk' := Finset.mem_range.mp hk
      rw [h k (by omega), h (cfg.N + 1 + k) (by omega)]
    exact ⟨hc, by rw [hlCost_eq_cost, hlCost_eq_cost, hc]⟩

/-- C3 (low-level variant): `lbx` and `ubx`, as passed to the solver in every tick, have
length `2N + 1`; at the state indices `0..N` they are `-inf` and `+inf`; at the indices
`N+1..2N` they are `u_min` and `u_max` (`-3000`, `3000` in the source), and those indices
are exactly the positions of the `N` controls in `dict_X`. -/
theorem C3_box_bounds_layout (cfg : Config K) :
    (∀ (x0 : List K) (v : K),
      (mkArg cfg x0 v).lbx = lbx cfg ∧ (mkArg cfg x0 v).ubx = ubx cfg) ∧
    (lbx cfg).length = 2 * cfg.N + 1 ∧ (ubx cfg).length = 2 * cfg.N + 1 ∧
    (dict_X cfg.N).length = 2 * cfg.N + 1 ∧
    (∀ j, j ≤ cfg.N →
      (dict_X cfg.N)[j]? = some (Sym.X j) ∧
      (lbx cfg)[j]? = some Ext.negInf ∧ (ubx cfg)[j]? = some Ext.posInf) ∧
    (∀ j, cfg.N + 1 ≤ j → j ≤ 2 * cfg.N →
      (dict_X cfg.N)[j]? = some (Sym.U (j - (cfg.N + 1))) ∧
      (lbx cfg)[j]? = some (Ext.fin cfg.u_min) ∧ (ubx cfg)[j]? = some (Ext.fin cfg.u_max)) ∧
    (Config.reference K).u_min = -3000 ∧ (Config.reference K).u_max = 3000 := by
  refine ⟨fun _ _ => ⟨rfl, rfl⟩, by rw [lbx_length]; omega, by rw [ubx_length]; omega,
    by rw [dict_X_length]; omega, fun j hj => ?_, fun j h1 h2 => ?_, rfl, rfl⟩
  · exact ⟨dict_X_state _ _ hj, lbx_state cfg j hj, ubx_state cfg j hj⟩
  · exact ⟨dict_X_control _ _ h1 (by omega), lbx_control cfg j h1 (by omega),
      ubx_control cfg j h1 (by omega)⟩

/-- C4: for `N ≥ 1` and a returned vector of length `2N + 1`, the tick applies to the
plant (and prints) exactly the entry at index `N + 1`; in the layout `dict_X` that index
holds the symbol `U(0)`, no other index does, and the value bound to `U(0)` is that
entry. -/
theorem C4_applied_control_is_entry_N_plus_1 (cfg : Config K) (solver : Arg K → List K)
    (s : LoopState K) (i : ℕ) (hN : 1 ≤ cfg.N) (hs : s.failed = false)
    (hlen : (solver (mkArg cfg (x_init cfg) s.current_v)).length = 2 * cfg.N + 1) :
    tick cfg solver (x_init cfg) s i =
      { current_v := s.current_v +
          ((solver (mkArg cfg (x_init cfg) s.current_v)).getD (cfg.N + 1) 0 / cfg.m) * cfg.dt
        calls := s.calls ++ [mkArg cfg (x_init cfg) s.current_v]
        printed := s.printed ++
          [((i : K) * cfg.dt,
            (s.current_v +
              ((solver (mkArg cfg (x_init cfg) s.current_v)).getD (cfg.N + 1) 0 / cfg.m) *
                cfg.dt) * (36 / 10),
            (solver (mkArg cfg (x_init cfg) s.current_v)).getD (cfg.N + 1) 0)]
        failed := false } ∧
    (dict_X cfg.N)[cfg.N + 1]? = some (Sym.U 0) ∧
    (∀ j, (dict_X cfg.N)[j]? = some (Sym.U 0) → j = cfg.N + 1) ∧
    envOf (nlp cfg).x (nlp cfg).p (solver (mkArg cfg (x_init cfg) s.current_v)) s.current_v
        (Sym.U 0) =
      (solver (mkArg cfg (x_init cfg) s.current_v)).getD (cfg.N + 1) 0 := by
  have hlt : cfg.N + 1 < (solver (mkArg cfg (x_init cfg) s.current_v)).length := by omega
  have hc := List.getElem?_eq_getElem hlt
  refine ⟨?_, ?_, ?_, ?_⟩
  · rw [tick_ok cfg solver _ s i hs _ hc, List.getD_eq_getElem?_getD, hc]
    rfl
  · simpa using dict_X_control cfg.N (cfg.N + 1) (le_refl _) (by omega)
  · intro j hj
    by_cases h1 : j ≤ cfg.N
    · rw [dict_X_state _ _ h1] at hj
      cases hj
    · by_cases h2 : j < cfg.N + 1 + cfg.N
      · rw [dict_X_control _ _ (by omega) h2] at hj
        injection hj with hj
        injection hj with hj
        omega
      · rw [List.getElem?_eq_none (by rw [dict_X_length]; omega)] at hj
        cases hj
  · simpa using env_U cfg (solver (mkArg cfg (x_init cfg) s.current_v)) s.current_v 0 hN

/-- Witness for C4: horizon `N = 1`, a solver returning `[0, 1, 1500]`, first tick: the
new velocity is `0 + (1500 / m) * dt`. -/
theorem C4_applied_control_is_entry_N_plus_1_witness :
    1 ≤ ({ Config.reference ℚ with N := 1 } : Config ℚ).N ∧
    (tick ({ Config.reference ℚ with N := 1 }) (fun _ => [0, 1, 1500])
        (x_init ({ Config.reference ℚ with N := 1 }))
        { current_v := 0, calls := [], printed := [], failed := false } 0).current_v =
      0 + ((1500 : ℚ) / (Config.reference ℚ).m) * (Config.reference ℚ).dt :=
  ⟨by decide,
    congrArg LoopState.current_v
      (C4_applied_control_is_entry_N_plus_1 ({ Config.reference ℚ with N := 1 })
        (fun _ => [0, 1, 1500]) { current_v := 0, calls := [], printed := [], failed := false }
        0 (by decide) rfl (by decide)).1⟩

/-- C5: the plant update of the loop is the expression `x_next` of the dynamics
constraint (in both variants) evaluated at the same velocity and control; hence, for
`N ≥ 1`, when the returned vector satisfies the equality constraints for the injected
velocity, the plant velocity after the tick equals the predicted `X[1]`. -/
theorem C5_plant_update_equals_prediction (cfg : Config K) (hN : 1 ≤ cfg.N) :
    (∀ (σ : Sym → K) (k : ℕ),
      plantStep cfg (σ (Sym.X k)) (σ (Sym.U k)) = SX.eval σ (x_next cfg k) ∧
      plantStep cfg (σ (Sym.X k)) (σ (Sym.U k)) = SX.eval σ (hl_x_next cfg k)) ∧
    (∀ (solver : Arg K → List K) (s : LoopState K) (i : ℕ), s.failed = false →
      (solver (mkArg cfg (x_init cfg) s.current_v)).length = 2 * cfg.N + 1 →
      (∀ r ∈ gValues cfg (solver (mkArg cfg (x_init cfg) s.current_v)) s.current_v, r = 0) →
      (tick cfg solver (x_init cfg) s i).current_v =
        (solver (mkArg cfg (x_init cfg) s.current_v)).getD 1 0) ∧
    (∀ (solve : ℕ → K → List K) (s : K × List K) (i : ℕ),
      HlFeasible cfg s.1 (solve i s.1) →
      (hlTick cfg solve s i).1 = (solve i s.1).getD 1 0) := by
  refine ⟨fun σ k => ⟨rfl, rfl⟩, ?_, ?_⟩
  · intro solver s i hs hlen hg
    have hlt : cfg.N + 1 < (solver (mkArg cfg (x_init cfg) s.current_v)).length := by omega
    have hc := List.getElem?_eq_getElem hlt
    obtain ⟨h0, hd⟩ := (gValues_zero_iff cfg _ _).mp hg
    have h1 := hd 0 hN
    rw [tick_ok cfg solver _ s i hs _ hc]
    simp only [plantStep]
    rw [zero_add, h0, add_zero, List.getD_eq_getElem?_getD _ (cfg.N + 1), hc] at h1
    exact h1.symm
  · intro solve s i hf
    obtain ⟨_, ⟨h0, hd⟩, _⟩ := (hlFeasible_iff cfg _ _).mp hf
    have h1 := hd 0 hN
    rw [zero_add, h0, add_zero] at h1
    simp only [hlTick, hlControl_eq]
    exact h1.symm

/-- Witness for C5: horizon `N = 1`, a solver returning the feasible vector
`[0, 1, 15000]` for the velocity `0`: the plant velocity after the tick is `X[1] = 1`. -/
theorem C5_plant_update_equals_prediction_witness :
    1 ≤ ({ Config.reference ℚ with N := 1 } : Config ℚ).N ∧
    (tick ({ Config.reference ℚ with N := 1 }) (fun _ => [0, 1, 15000])
        (x_init ({ Config.reference ℚ with N := 1 }))
        { current_v := 0, calls := [], printed := [], failed := false } 0).current_v = 1 :=
  ⟨by decide,
    (C5_plant_update_equals_prediction ({ Config.reference ℚ with N := 1 }) (by decide)).2.1
      (fun _ => [0, 1, 15000]) { current_v := 0, calls := [], printed := [], failed := false }
      0 rfl (by decide)
      (by
        rw [gValues_eq]
        norm_num [Config.reference, List.range, List.range.loop])⟩

/-- C8: in the reference configuration (start at `v = 0`, `v_ref = 100/3.6`, `m = 1500`,
`N = 20`, `dt = 0.1`, bounds `±3000`), if in each of the 200 ticks the solver returns an
exact minimiser of the horizon problem for the injected velocity, then in both variants
no read fails, the plant velocity is non-decreasing, never exceeds `v_ref`, and from
tick 181 (which is before 200) to the end it stays within `1/3.6` m/s (1 km/h) of
`v_ref`. -/
theorem C8_exact_solves_settle_monotonically (solver : Arg K → List K)
    (solve : ℕ → K → List K)
    (hexact : ∀ i, i < 200 →
      IsMinimiser (Config.reference K)
        (mkArg (Config.reference K) (x_init (Config.reference K))
          (velocity (Config.reference K) solver i))
        (solver (mkArg (Config.reference K) (x_init (Config.reference K))
          (velocity (Config.reference K) solver i))))
    (hlexact : ∀ i, i < 200 →
      HlIsMinimiser (Config.reference K) (hlVelocity (Config.reference K) solve i)
        (solve i (hlVelocity (Config.reference K) solve i))) :
    ((run (Config.reference K) solver).failed = false ∧
      (run (Config.reference K) solver).current_v = velocity (Config.reference K) solver 200 ∧
      (∀ i, i < 200 →
        velocity (Config.reference K) solver i ≤ velocity (Config.reference K) solver (i + 1)) ∧
      (∀ i, i ≤ 200 → velocity (Config.reference K) solver i ≤ (Config.reference K).v_ref) ∧
      ∀ i, 181 ≤ i → i ≤ 200 →
        |velocity (Config.reference K) solver i - (Config.reference K).v_ref| ≤ 1 / (36 / 10)) ∧
    ((∀ i, i < 200 →
        hlVelocity (Config.reference K) solve i ≤ hlVelocity (Config.reference K) solve (i + 1)) ∧
      (∀ i, i ≤ 200 → hlVelocity (Config.reference K) solve i ≤ (Config.reference K).v_ref) ∧
      ∀ i, 181 ≤ i → i ≤ 200 →
        |hlVelocity (Config.reference K) solve i - (Config.reference K).v_ref| ≤ 1 / (36 / 10)) := by
  obtain ⟨hnf, hmono, hbelow, hband⟩ := reference_run_settles solver hexact
  obtain ⟨hmono', hbelow', hband'⟩ := reference_hl_run_settles solve hlexact
  rw [reference_v_ref]
  refine ⟨⟨hnf 200 (le_refl _), rfl, hmono, hbelow, fun i h1 h2 => ?_⟩,
    hmono', hbelow', fun i h1 h2 => ?_⟩
  · rw [abs_le]
    have := hband i h1 h2
    have := hbelow i h2
    constructor <;> norm_num <;> linarith
  · rw [abs_le]
    have := hband' i h1 h2
    have := hbelow' i h2
    constructor <;> norm_num <;> linarith

/-- Witness for C8: over `ℚ`, both loops driven by the explicit solver `exactSolve`, which
returns an exact minimiser in every tick; the run completes and the final velocity of
either loop is within the band. -/
theorem C8_exact_solves_settle_monotonically_witness :
    (run (Config.reference ℚ) (exactSolve (Config.reference ℚ))).failed = false ∧
    velocity (Config.reference ℚ) (exactSolve (Config.reference ℚ)) 199 ≤
      velocity (Config.reference ℚ) (exactSolve (Config.reference ℚ)) 200 ∧
    |velocity (Config.reference ℚ) (exactSolve (Config.reference ℚ)) 200 -
      (Config.reference ℚ).v_ref| ≤ 1 / (36 / 10) ∧
    |hlVelocity (Config.reference ℚ)
        (fun _ p => exactSolve (Config.reference ℚ)
          (mkArg (Config.reference ℚ) (x_init (Config.reference ℚ)) p)) 200 -
      (Config.reference ℚ).v_ref| ≤ 1 / (36 / 10) :=
  have h := C8_exact_solves_settle_monotonically (exactSolve (Config.reference ℚ))
    (fun _ p => exactSolve (Config.reference ℚ)
      (mkArg (Config.reference ℚ) (x_init (Config.reference ℚ)) p))
    (fun i _ => exactSolve_exact_along_run i)
    (fun i _ => exactSolve_exact_along_hl_run i)
  ⟨h.1.1, h.1.2.2.1 199 (by norm_num), h.1.2.2.2.2 200 (by norm_num) (le_refl _),
    h.2.2.2 200 (by norm_num) (le_refl _)⟩

/-- C9 (low-level variant): for every solver, every call made by the loop has the all-zero
vector of length `2N + 1` as `x0`; call number `i` differs from the others only in `p`,
which is the plant velocity after `i` ticks; and when the returned vectors have an entry
at index `N + 1` there is one such call for each of the `ticks` (200) passes. -/
theorem C9_initial_guess_is_zero_every_tick (cfg : Config K) (solver : Arg K → List K) :
    (∀ a ∈ (run cfg solver).calls, a.x0 = List.replicate (2 * cfg.N + 1) 0) ∧
    (∀ i, i < (run cfg solver).calls.length →
      (run cfg solver).calls[i]? =
        some { x0 := List.replicate (2 * cfg.N + 1) 0
               p := (runTicks cfg solver i).current_v
               lbg := 0
               ubg := 0
               lbx := lbx cfg
               ubx := ubx cfg }) ∧
    ((∀ a, cfg.N + 1 < (solver a).length) → (run cfg solver).calls.length = cfg.ticks) ∧
    (Config.reference K).ticks = 200 := by
  have hx : x_init cfg = List.replicate (2 * cfg.N + 1) 0 := by
    unfold x_init
    congr 1
    omega
  refine ⟨fun a ha => ?_, fun i hi => ?_, fun hsol => (runTicks_ok cfg solver hsol _).2.1, rfl⟩
  · unfold run at ha
    rw [runTicks_calls cfg solver cfg.ticks a ha, ← hx]
    rfl
  · unfold run at hi ⊢
    rw [(runTicks_inv cfg solver cfg.ticks).2.2 i hi, ← hx]
    rfl

/-- C10: the `N + 1` equality constraints determine the states from `v0` and the controls:
they hold exactly when `X[k] = v0 + (dt / m) * (U[0] + ... + U[k-1])` for `k = 0..N`; so
for every `v0` and every control sequence there is exactly one decision vector with those
controls that satisfies them.  As the states are unbounded, `X ≡ v0`, `U ≡ 0` is feasible
in both variants whenever `u_min ≤ 0 ≤ u_max`, as is the case for the bounds of the
source with any horizon `N` and any `v0`. -/
theorem C10_states_determined_by_controls (cfg : Config K) :
    (∀ σ : Sym → K, (∀ e ∈ g cfg, SX.eval σ e = 0) ↔
      ∀ k, k ≤ cfg.N →
        σ (Sym.X k) = σ Sym.v0 + (cfg.dt / cfg.m) * ∑ j in Finset.range k, σ (Sym.U j)) ∧
    (∀ (v0 : K) (u : ℕ → K), ∃! xs : List K,
      xs.length = 2 * cfg.N + 1 ∧ (∀ k, k < cfg.N → xs.getD (cfg.N + 1 + k) 0 = u k) ∧
      ∀ r ∈ gValues cfg xs v0, r = 0) ∧
    (∀ (v0 : K) (xs : List K), (∀ r ∈ gValues cfg xs v0, r = 0) →
      ∀ k, k ≤ cfg.N →
        xs.getD k 0 =
          v0 + (cfg.dt / cfg.m) * ∑ j in Finset.range k, xs.getD (cfg.N + 1 + j) 0) ∧
    (cfg.u_min ≤ 0 → 0 ≤ cfg.u_max → ∀ v0 : K,
      Feasible cfg (mkArg cfg (x_init cfg) v0)
        (List.replicate (cfg.N + 1) v0 ++ List.replicate cfg.N 0) ∧
      HlFeasible cfg v0 (List.replicate (cfg.N + 1) v0 ++ List.replicate cfg.N 0)) ∧
    (∀ (N : ℕ) (v0 : K),
      Feasible ({ Config.reference K with N := N })
        (mkArg ({ Config.reference K with N := N })
          (x_init ({ Config.reference K with N := N })) v0)
        (List.replicate (N + 1) v0 ++ List.replicate N 0) ∧
      HlFeasible ({ Config.reference K with N := N }) v0
        (List.replicate (N + 1) v0 ++ List.replicate N 0)) := by
  have hfeas : ∀ c : Config K, c.u_min ≤ 0 → 0 ≤ c.u_max → ∀ v0 : K,
      Feasible c (mkArg c (x_init c) v0)
        (List.replicate (c.N + 1) v0 ++ List.replicate c.N 0) ∧
      HlFeasible c v0 (List.replicate (c.N + 1) v0 ++ List.replicate c.N 0) := by
    intro c h1 h2 v0
    have hv : List.replicate (c.N + 1) v0 ++ List.replicate c.N 0 =
        vec c.N (fun _ => v0) (fun _ => 0) := by
      simp [vec]
    rw [hlFeasible_iff_feasible c (x_init c), and_self, hv, feasible_iff]
    refine ⟨vec_length _ _ _, ⟨vec_state _ _ _ 0 (Nat.zero_le _), fun k hk => ?_⟩,
      fun k hk => ?_⟩
    · rw [vec_state _ _ _ (k + 1) hk, vec_state _ _ _ k (by omega), vec_control _ _ _ k hk]
      simp
    · rw [vec_control _ _ _ k hk]
      exact ⟨h1, h2⟩
  refine ⟨fun σ => ?_, fun v0 u => ?_, fun v0 xs hg => ?_, hfeas cfg, fun N v0 => ?_⟩
  · rw [g_zero_iff, euler_closed_form cfg.dt cfg.m (σ Sym.v0) cfg.N (fun k => σ (Sym.X k))
      (fun k => σ (Sym.U k))]
  · refine ⟨vec cfg.N (fun k => v0 + (cfg.dt / cfg.m) * ∑ j in Finset.range k, u j) u,
      ⟨by rw [vec_length]; omega, fun k hk => vec_control _ _ _ k hk, ?_⟩, ?_⟩
    · rw [gValues_zero_iff]
      have := (euler_closed_form cfg.dt cfg.m v0 cfg.N
        (fun k => v0 + (cfg.dt / cfg.m) * ∑ j in Finset.range k, u j) u).mpr (fun k _ => rfl)
      refine ⟨by rw [vec_state _ _ _ 0 (Nat.zero_le _)]; exact this.1, fun k hk => ?_⟩
      rw [vec_state _ _ _ (k + 1) hk, vec_state _ _ _ k (by omega), vec_control _ _ _ k hk]
      exact this.2 k hk
    · rintro ys ⟨hl, hu, hg⟩
      have hcf := (euler_closed_form cfg.dt cfg.m v0 cfg.N (fun k => ys.getD k 0)
        (fun k => ys.getD (cfg.N + 1 + k) 0)).mp ((gValues_zero_iff cfg ys v0).mp hg)
      apply eq_of_entries cfg.N _ _ (by omega) (vec_length _ _ _)
      · intro k hk
        rw [vec_state _ _ _ k hk, hcf k hk]
        congr 2
        apply Finset.sum_congr rfl
        intro j hj
        exact hu j (by have := Finset.mem_range.mp hj; omega)
      · intro k hk
        rw [vec_control _ _ _ k hk, hu k hk]
  · exact (euler_closed_form cfg.dt cfg.m v0 cfg.N (fun k => xs.getD k 0)
      (fun k => xs.getD (cfg.N + 1 + k) 0)).mp ((gValues_zero_iff cfg xs v0).mp hg)
  · exact hfeas ({ Config.reference K with N := N }) (by simp [Config.reference])
      (by simp [Config.reference]) v0

end Claims

end Mpc
